import Mathlib

/-!
# Verification of the packwisely-patcher core

A shallow embedding of the Rust sources `src/src-tauri/src/lib.rs`,
`install.rs`, `file_util.rs` and `wine_util.rs`, together with proofs
settling the frozen claims about the spec.

Modelling conventions, chosen once and used throughout:

* A filesystem path (`PathBuf`) is its list of components (`FPath` below).
  `PathBuf::join` with a multi-component string such as
  `format!("{}/{}-{}", version, os, arch)` appends the corresponding
  components.  Paths are literal component lists: the model does not
  resolve `..` or symlinks (none of the code under proof produces them).
* The filesystem is a snapshot of regular files and directories.  File
  contents are `FileData`: raw bytes, a tar archive (a list of entries in
  order, duplicates allowed), or a serialized `PatchManifest`.  The
  latter two stand for the byte-level tar/JSON encodings; a JSON decode
  of a file that is not a serialized manifest fails, as in the code.
* Stateful Rust code becomes the state monad `M` over `St` (filesystem
  plus a log of performed network fetches).  An error aborts the rest of
  the computation but keeps all state mutations made so far, exactly as
  the `?` operator does.
* The external primitives (BLAKE3, the rsync-style signature/diff/apply
  and zstd) are cited primitives in the spec; they are parameters
  (`Prims`), so every theorem holds for any implementation of them, and
  witnesses instantiate them concretely.  Tar framing and zstd transport
  are modelled as the identity on the entry list (the code streams them
  through unchanged).
* Host OS/arch/family and the `which wine` probe are parameters
  (`Host`); the HTTP catalog is a parameter (`Remote`) addressed by the
  same channel/version/os/arch coordinates the code puts in URLs.
  Network transport itself is assumed to deliver the served data.
* `semver::Version` values are carried as opaque strings compared for
  equality; no claim depends on version parsing or ordering.
* Directory traversal (`visit_stream`) is a worklist loop; the model
  gives it explicit fuel and makes fuel exhaustion an error (the real
  loop would simply keep running; it terminates on every well-founded
  directory tree).
* Progress reporting (`InstallProgress`, `CreatePatchProgress`) is
  emission to an opaque sink and is dropped from the model; no claim
  mentions it.
-/

/-- A filesystem path as its list of components. -/
abbrev FPath : Type := List String

/-- File contents as a byte list. -/
abbrev Bytes : Type := List Nat

/-- A 32-byte BLAKE3 digest (abstract). -/
abbrev Hash : Type := List Nat

deriving instance DecidableEq for Except

/-- IO error kinds the model distinguishes (`std::io::ErrorKind`). -/
inductive IoKind where
  | notFound
  | alreadyExists
  | isDirectory
  | fuelExhausted
  | other
  deriving DecidableEq, Repr

/-- The error kinds of `file_util::CopyError`. -/
inductive CopyErrKind where
  | ioErr (k : IoKind)
  | stripRootErr
  | orphan
  deriving DecidableEq, Repr

/-- The union of `install::InstallError` and the error kinds reachable in
`do_create_patch` (which uses `anyhow`).  Payloads that only feed error
messages (hex strings, display text) keep their underlying data. -/
inductive Err where
  | UnknownChannel
  | UnknownVersion
  | UnsupportedArch
  | UnsupportedOS
  | IoErr (k : IoKind)
  | CreateDir (k : IoKind)
  | InvalidArchivePath (p : FPath)
  | InvalidInstalledPatch
  | MissingPreviousVersion
  | UnexpectedArchiveFile (p : FPath)
  | DiffApplyErr
  | DiffCreateErr
  | WrongSize (expected actual : Nat)
  | WrongHash (expected actual : Hash)
  | JsonErr
  | CopyErr (k : CopyErrKind)
  | StripRootFailed
  deriving DecidableEq, Repr

/-- A version string (`semver::Version`, carried opaquely). -/
abbrev Version : Type := String

/-- `FileManifest` from lib.rs: path, length and BLAKE3 hash of the new
version of one file. -/
structure FileManifest where
  path : FPath
  len : Nat
  hash : Hash
  deriving DecidableEq, Repr

/-- `PatchManifestVersion` from lib.rs. -/
inductive PatchManifestVersion where
  | V1
  deriving DecidableEq, Repr

/-- `PatchManifest` from lib.rs. -/
structure PatchManifest where
  manifest_version : PatchManifestVersion
  version : Version
  previous_version : Option Version
  new_files : List FileManifest
  diff_files : List FileManifest
  stale_files : List FPath
  deriving DecidableEq, Repr

/-- Contents of a regular file: raw bytes, a tar archive (entries in
stream order, for `raw.tar`/`sig.tar`/`diff.tar`), or a serialized
`PatchManifest` (for `manifest.json`). -/
inductive FileData where
  | bytes (b : Bytes)
  | tar (entries : List (FPath × Bytes))
  | manifest (m : PatchManifest)
  deriving DecidableEq, Repr

/-- The byte size `metadata().len()` reports for a file in the model. -/
def FileData.size : FileData → Nat
  | .bytes b => b.length
  | .tar es => (es.map (fun e => e.2.length)).sum
  | .manifest _ => 1

/-- The bytes a plain `File::open`/`read` sees.  Only `.bytes` files are
ever read this way by the code under proof. -/
def FileData.toBytes : FileData → Bytes
  | .bytes b => b
  | .tar _ => []
  | .manifest _ => []

/-- A filesystem snapshot: regular files with their contents, and the
set of existing directories. -/
structure FS where
  files : List (FPath × FileData)
  dirs : List FPath
  deriving DecidableEq, Repr

/-- First value stored under key `p` in an association list. -/
def lookupKey (p : FPath) : List (FPath × FileData) → Option FileData
  | [] => none
  | e :: es => if e.1 = p then some e.2 else lookupKey p es

/-- Drop every entry stored under key `p`. -/
def eraseKey (p : FPath) : List (FPath × FileData) → List (FPath × FileData)
  | [] => []
  | e :: es => if e.1 = p then eraseKey p es else e :: eraseKey p es

/-- Content of the regular file at `p`, if any. -/
def FS.getFile (fs : FS) (p : FPath) : Option FileData :=
  lookupKey p fs.files

/-- Whether a directory exists at `p`. -/
def FS.hasDir (fs : FS) (p : FPath) : Bool :=
  fs.dirs.contains p

/-- Set (create or overwrite) the regular file at `p`.  The entry is
kept at the front of the snapshot list; on-disk enumeration order is
unspecified, so any consistent placement is a faithful model. -/
def FS.setFile (fs : FS) (p : FPath) (d : FileData) : FS :=
  { fs with files := (p, d) :: eraseKey p fs.files }

/-- Remove the regular file at `p` (`remove_file`): `NotFound` if absent. -/
def FS.removeFile (fs : FS) (p : FPath) : Except IoKind FS :=
  if (lookupKey p fs.files).isSome then
    .ok { fs with files := eraseKey p fs.files }
  else
    .error .notFound

/-- All proper ancestors of a path (every nonempty strict component
  prefix), shortest first. -/
def ancestorsOf : FPath → List FPath
  | [] => []
  | p => (List.range (p.length - 1)).map (fun n => p.take (n + 1))

/-- `create_dir_all`: create the directory and every ancestor.  Total in
the model (the code treats its failure as `CreateDir`, which no run in
the model produces). -/
def FS.createDirAll (fs : FS) (p : FPath) : FS :=
  { fs with dirs := fs.dirs ++ ((ancestorsOf p ++ [p]).filter (fun a => ¬ fs.dirs.contains a ∧ a ≠ [])) }

/-- `create_dir`: fails `AlreadyExists` if the directory exists, and
`NotFound` if the parent directory is missing (the root `[]` always
exists). -/
def FS.createDir (fs : FS) (p : FPath) : Except IoKind FS :=
  if fs.dirs.contains p then .error .alreadyExists
  else if p.dropLast = [] ∨ fs.dirs.contains p.dropLast then
    .ok { fs with dirs := fs.dirs ++ [p] }
  else .error .notFound

/-- `File::create`: truncate-or-create at `p` with content `d`; fails
`NotFound` when the parent directory is missing. -/
def FS.createFile (fs : FS) (p : FPath) (d : FileData) : Except IoKind FS :=
  if p = [] then .error .other
  else if p.dropLast = [] ∨ fs.dirs.contains p.dropLast then
    .ok (fs.setFile p d)
  else .error .notFound

/-- `File::create_new`: like `createFile` but fails `AlreadyExists` if a
file is already present at `p`. -/
def FS.createNewFile (fs : FS) (p : FPath) (d : FileData) : Except IoKind FS :=
  if (lookupKey p fs.files).isSome then .error .alreadyExists
  else fs.createFile p d

/-- Read the regular file at `p` (`File::open` + read):
`NotFound` when absent, `IsADirectory` when `p` is a directory. -/
def FS.readFile (fs : FS) (p : FPath) : Except IoKind FileData :=
  match fs.getFile p with
  | some d => .ok d
  | none => if fs.hasDir p then .error .isDirectory else .error .notFound

/-- The directory entries `read_dir` yields for `d`: each child is
`(is_dir, path)`.  Subdirectories come first, then files, each in
snapshot order (the OS order is unspecified; the model fixes one). -/
def FS.readDir (fs : FS) (d : FPath) : Except IoKind (List (Bool × FPath)) :=
  if fs.dirs.contains d then
    .ok ((fs.dirs.filterMap (fun q => if q ≠ [] ∧ q.dropLast = d then some (true, q) else none)) ++
         (fs.files.filterMap (fun e => if e.1 ≠ [] ∧ e.1.dropLast = d then some (false, e.1) else none)))
  else .error .notFound

/-- One network-fetch event, identified the way the code's URLs are. -/
inductive FetchKey where
  | channels
  | versions (channel : String)
  | patchManifest (channel : String) (version : Version) (os arch : String)
  | diffTar (channel : String) (version : Version) (os arch : String)
  | rawTar (channel : String) (version : Version) (os arch : String)
  deriving DecidableEq, Repr

/-- The run state: the filesystem and the log of fetches performed. -/
structure St where
  fs : FS
  log : List FetchKey
  deriving DecidableEq, Repr

/-- The effect monad: state threading with fail-fast errors that keep
the state reached at the error point (Rust's `?`). -/
def M (α : Type) : Type := St → Except Err α × St

instance : Monad M where
  pure a := fun st => (.ok a, st)
  bind x f := fun st =>
    match x st with
    | (.ok a, st') => f a st'
    | (.error e, st') => (.error e, st')

/-- Unfold `pure` on `M`. -/
theorem M.pure_def {α : Type} (a : α) (st : St) :
    (pure a : M α) st = (.ok a, st) := rfl

/-- Unfold `bind` on `M`. -/
theorem M.bind_def {α β : Type} (x : M α) (f : α → M β) (st : St) :
    (x >>= f) st =
      match x st with
      | (.ok a, st') => f a st'
      | (.error e, st') => (.error e, st') := rfl

/-- Abort with an error, leaving the state as it is. -/
def throwM {α : Type} (e : Err) : M α := fun st => (.error e, st)

/-- Lift an `Except IoKind` filesystem step into `M`, mapping the error
kind through `wrap`. -/
def liftFS {α : Type} (wrap : IoKind → Err) (f : FS → Except IoKind (α × FS)) : M α :=
  fun st =>
    match f st.fs with
    | .ok (a, fs') => (.ok a, { st with fs := fs' })
    | .error k => (.error (wrap k), st)

/-! ## Basic filesystem lemmas -/

theorem lookupKey_eraseKey_ne (l : List (FPath × FileData)) (p q : FPath) (h : ¬ q = p) :
    lookupKey q (eraseKey p l) = lookupKey q l := by
  induction l with
  | nil => rfl
  | cons a as ih =>
      have h' : ¬ p = q := fun hc => h hc.symm
      by_cases hap : a.1 = p
      · have haq : ¬ a.1 = q := fun hc => h (by rw [← hc, hap])
        simp [eraseKey, lookupKey, hap, haq, ih, h, h']
      · by_cases haq : a.1 = q
        · simp [eraseKey, lookupKey, hap, haq, h, h']
        · simp [eraseKey, lookupKey, hap, haq, ih, h, h']

theorem getFile_setFile_self (fs : FS) (p : FPath) (d : FileData) :
    (fs.setFile p d).getFile p = some d := by
  simp [FS.setFile, FS.getFile, lookupKey]

theorem getFile_setFile_ne (fs : FS) (p q : FPath) (d : FileData) (h : ¬ q = p) :
    (fs.setFile p d).getFile q = fs.getFile q := by
  have : ¬ p = q := fun hc => h hc.symm
  simp [FS.setFile, FS.getFile, lookupKey, this, lookupKey_eraseKey_ne fs.files p q h]

theorem getFile_removeFile_ne (fs fs' : FS) (p q : FPath) (h : ¬ q = p)
    (hr : fs.removeFile p = .ok fs') : fs'.getFile q = fs.getFile q := by
  unfold FS.removeFile at hr
  split at hr
  · cases hr
    simp [FS.getFile, lookupKey_eraseKey_ne fs.files p q h]
  · cases hr

theorem getFile_createDirAll (fs : FS) (p q : FPath) :
    (fs.createDirAll p).getFile q = fs.getFile q := rfl

theorem createFile_ok_eq (fs fs' : FS) (p : FPath) (d : FileData)
    (h : fs.createFile p d = .ok fs') : fs' = fs.setFile p d := by
  unfold FS.createFile at h
  split at h
  · cases h
  · split at h
    · cases h; rfl
    · cases h

theorem createNewFile_ok_eq (fs fs' : FS) (p : FPath) (d : FileData)
    (h : fs.createNewFile p d = .ok fs') : fs' = fs.setFile p d := by
  unfold FS.createNewFile at h
  split at h
  · cases h
  · exact createFile_ok_eq fs fs' p d h

theorem createDir_ok_files (fs fs' : FS) (p : FPath)
    (h : fs.createDir p = .ok fs') : fs'.files = fs.files := by
  unfold FS.createDir at h
  split at h
  · cases h
  · split at h
    · cases h; rfl
    · cases h

/-! ## External primitives and environment -/

/-- The cited external primitives: BLAKE3 (`sum_hash::Blake3Hash`), the
rsync-style signature (`Signature::calculate` serialized), the delta
producer (`Signature::deserialize` + `index` + `diff`, fused; `none` is
any failure in that chain) and the delta consumer (`apply_limited`,
producing the bytes written to the output file, `none` on failure). -/
structure Prims where
  blake3 : Bytes → Hash
  signature : Bytes → Bytes
  rdiff : Bytes → Bytes → Option Bytes
  applyLimited : Bytes → Bytes → Nat → Option Bytes

/-- `ChannelManifest` from install.rs. -/
structure ChannelManifest where
  name : String
  deriving DecidableEq, Repr

/-- `PlatformManifest` from install.rs. -/
structure PlatformManifest where
  os : String
  arch : String
  exe_path : String
  deriving DecidableEq, Repr

/-- `VersionManifest` from install.rs. -/
structure VersionManifest where
  version : Version
  platforms : List PlatformManifest
  deriving DecidableEq, Repr

/-- The build-time host constants and the `which wine` probe result. -/
structure Host where
  os : String
  arch : String
  family : String
  winePresent : Bool

/-- The HTTP catalog the installer talks to, addressed by the same
channel/version/os/arch coordinates the code joins into URLs. -/
structure Remote where
  channels : List ChannelManifest
  versions : String → List VersionManifest
  patchManifest : String → Version → String → String → PatchManifest
  diffTar : String → Version → String → String → List (FPath × Bytes)
  rawTar : String → Version → String → String → List (FPath × Bytes)

/-! ## Monadic filesystem and network steps -/

/-- `File::create` with content `d`, wrapping the error kind. -/
def mCreateFile (wrap : IoKind → Err) (p : FPath) (d : FileData) : M Unit :=
  liftFS wrap (fun fs => (fs.createFile p d).map (fun fs' => ((), fs')))

/-- `File::create_new` with content `d` (used by `copy_dir`). -/
def mCreateNewFile (wrap : IoKind → Err) (p : FPath) (d : FileData) : M Unit :=
  liftFS wrap (fun fs => (fs.createNewFile p d).map (fun fs' => ((), fs')))

/-- Overwrite the file at `p` through an already-open handle (the model
of writes to a file the caller has just created). -/
def mSetFile (p : FPath) (d : FileData) : M Unit :=
  fun st => (.ok (), { st with fs := st.fs.setFile p d })

/-- `tokio::fs::remove_file`. -/
def mRemoveFile (p : FPath) : M Unit :=
  liftFS .IoErr (fun fs => (fs.removeFile p).map (fun fs' => ((), fs')))

/-- `tokio::fs::create_dir_all`, wrapped in `InstallError::CreateDir` by
the callers in install.rs. -/
def mCreateDirAll (p : FPath) : M Unit :=
  fun st => (.ok (), { st with fs := st.fs.createDirAll p })

/-- `tokio::fs::create_dir` (used by `copy_dir`). -/
def mCreateDir (wrap : IoKind → Err) (p : FPath) : M Unit :=
  liftFS wrap (fun fs => (fs.createDir p).map (fun fs' => ((), fs')))

/-- Open and read a whole regular file. -/
def mReadFile (wrap : IoKind → Err) (p : FPath) : M FileData :=
  fun st =>
    match st.fs.readFile p with
    | .ok d => (.ok d, st)
    | .error k => (.error (wrap k), st)

/-- Read a directory's entries (used by the traversal loops). -/
def mReadDir (wrap : IoKind → Err) (d : FPath) : M (List (Bool × FPath)) :=
  fun st =>
    match st.fs.readDir d with
    | .ok es => (.ok es, st)
    | .error k => (.error (wrap k), st)

/-- Record a fetch in the log and return the served value. -/
def mFetch {α : Type} (key : FetchKey) (value : α) : M α :=
  fun st => (.ok value, { st with log := st.log ++ [key] })

/-! ## wine_util.rs and the catalog helpers of install.rs -/

/-- `wine_util::get_wine_path().ok()`: `Some` exactly when the host
family is unix and `which wine` succeeds. -/
def get_wine_path (host : Host) : Option String :=
  if host.family = "unix" ∧ host.winePresent then some "wine" else none

/-- `install::get_platforms`: filter the version's platforms by host OS,
append the `windows` entries when wine is available, then filter by host
arch, failing `UnsupportedOS` / `UnsupportedArch` on empty lists. -/
def get_platforms (host : Host) (version_mf : VersionManifest) :
    Except Err (List PlatformManifest) :=
  let os_ok_list := version_mf.platforms.filter (fun mf => mf.os == host.os)
  let os_ok_list :=
    if (get_wine_path host).isSome then
      os_ok_list ++ version_mf.platforms.filter (fun mf => mf.os == "windows")
    else os_ok_list
  if os_ok_list.isEmpty then .error .UnsupportedOS
  else
    let arch_ok_list := os_ok_list.filter (fun mf => mf.arch == host.arch)
    if arch_ok_list.isEmpty then .error .UnsupportedArch
    else .ok arch_ok_list

/-- `install::join_install_dir`:
`channel_dir.join(format!("{}/{}-{}", version, os, arch))`. -/
def join_install_dir (channel_dir : FPath) (version : Version)
    (platform_mf : PlatformManifest) : FPath :=
  channel_dir ++ [version, platform_mf.os ++ "-" ++ platform_mf.arch]

/-- `install::verify_channel_dir`: read `channel_dir/manifest.json`;
absent is `None`, unparsable is `InvalidInstalledPatch`. -/
def verify_channel_dir (channel_dir : FPath) : M (Option PatchManifest) :=
  fun st =>
    match st.fs.getFile (channel_dir ++ ["manifest.json"]) with
    | some (.manifest m) => (.ok (some m), st)
    | some _ => (.error .InvalidInstalledPatch, st)
    | none => (.ok none, st)

/-- `install::get_channels` (`GET {root}/channels.json`). -/
def get_channels (remote : Remote) : M (List ChannelManifest) :=
  mFetch .channels remote.channels

/-- `install::get_versions` (`GET {root}/{channel}/versions.json`). -/
def get_versions (remote : Remote) (channel : String) : M (List VersionManifest) :=
  mFetch (.versions channel) (remote.versions channel)

/-- `install::get_patch` (`GET {platform_url}/manifest.json`). -/
def get_patch (remote : Remote) (channel : String) (version : Version)
    (os arch : String) : M PatchManifest :=
  mFetch (.patchManifest channel version os arch)
    (remote.patchManifest channel version os arch)

/-! ## file_util.rs: directory traversal and copying -/

/-- `Path::strip_prefix`: drop `root` from the front of `p`. -/
def dropRoot : FPath → FPath → Option FPath
  | [], p => some p
  | _ :: _, [] => none
  | a :: as, b :: bs => if a = b then dropRoot as bs else none

/-- One `copy_dir` loop body: strip the source prefix, `create_dir` the
destination parent, `File::create_new` the destination, then `fs::copy`
the contents.  Runs for every yielded entry, directories included, as in
the code. -/
def copyEntry (src_dir dst_dir : FPath) (e : Bool × FPath) : M Unit := do
  match dropRoot src_dir e.2 with
  | none => throwM (.CopyErr .stripRootErr)
  | some rel => do
      let dst := dst_dir ++ rel
      if dst = [] then throwM (.CopyErr .orphan)
      else do
        mCreateDir (fun k => .CopyErr (.ioErr k)) dst.dropLast
        mCreateNewFile (fun k => .CopyErr (.ioErr k)) dst (.bytes [])
        let d ← mReadFile (fun k => .CopyErr (.ioErr k)) e.2
        mSetFile dst d

/-- The fused `visit_stream` + `copy_dir` loop.  `to_visit` is the
worklist (head = the `Vec`'s top) and `pending` the entries of the
directory currently being enumerated.  A yielded subdirectory is pushed
before the next entry is taken, as in `file_util::visit_stream`. -/
def copyDirLoop (src_dir dst_dir : FPath) :
    Nat → List FPath → List (Bool × FPath) → M Unit
  | 0, _, _ => throwM (.CopyErr (.ioErr .fuelExhausted))
  | fuel + 1, to_visit, [] =>
      match to_visit with
      | [] => pure ()
      | d :: rest => do
          let children ← mReadDir (fun k => .CopyErr (.ioErr k)) d
          copyDirLoop src_dir dst_dir fuel rest children
  | fuel + 1, to_visit, e :: es => do
      copyEntry src_dir dst_dir e
      copyDirLoop src_dir dst_dir fuel (if e.1 then e.2 :: to_visit else to_visit) es

/-- `file_util::copy_dir`.  The fuel is an upper bound on loop steps; it
only runs out when the copy keeps creating directories inside the tree
being walked (where the real loop would not terminate either). -/
def copy_dir (src_dir dst_dir : FPath) : M Unit :=
  fun st =>
    copyDirLoop src_dir dst_dir
      (2 * (st.fs.dirs.length + st.fs.files.length) + 2) [src_dir] [] st

/-! ## install.rs: the patch application pipeline -/

/-- Lookup in the `HashMap` built by `install_patch` from a manifest file
list (`insert` makes the last duplicate win). -/
def mapLookup (files : List FileManifest) (p : FPath) : Option FileManifest :=
  files.reverse.find? (fun f => f.path == p)

/-- Processing of one `diff.tar.zst` entry in `install_patch`: look the
path up, pre-size the truncated destination, memory-map the old file,
apply the delta, then verify the written length (`stream_position`)
against `len` and the re-read content hash against `hash`.  Returns the
`files_to_remove` accumulator extended with the source path. -/
def processDiffEntry (P : Prims) (old_install_dir new_install_dir : FPath)
    (diff_files : List FileManifest) (acc : List FPath) (e : FPath × Bytes) :
    M (List FPath) := do
  match mapLookup diff_files e.1 with
  | none => throwM (.UnexpectedArchiveFile e.1)
  | some fm => do
      let src_path := old_install_dir ++ e.1
      let dst_path := new_install_dir ++ e.1
      if dst_path = [] then throwM (.InvalidArchivePath dst_path)
      else do
        mCreateDirAll dst_path.dropLast
        mCreateFile .IoErr dst_path (.bytes (List.replicate fm.len 0))
        let src ← mReadFile .IoErr src_path
        match P.applyLimited src.toBytes e.2 fm.len with
        | none => throwM .DiffApplyErr
        | some out => do
            let content := out ++ (List.replicate fm.len 0).drop out.length
            mSetFile dst_path (.bytes content)
            if out.length ≠ fm.len then throwM (.WrongSize fm.len out.length)
            else if P.blake3 content ≠ fm.hash then
              throwM (.WrongHash fm.hash (P.blake3 content))
            else pure (acc ++ [src_path])

/-- Processing of one `raw.tar.zst` entry in `install_patch`: look the
path up, create and pre-size the destination, stream the entry bytes to
it while hashing them, then verify written length and streamed hash. -/
def processNewEntry (P : Prims) (new_install_dir : FPath)
    (new_files : List FileManifest) (e : FPath × Bytes) : M Unit := do
  match mapLookup new_files e.1 with
  | none => throwM (.UnexpectedArchiveFile e.1)
  | some fm => do
      let dst_path := new_install_dir ++ e.1
      if dst_path = [] then throwM (.InvalidArchivePath dst_path)
      else do
        mCreateDirAll dst_path.dropLast
        mCreateFile .IoErr dst_path
          (.bytes (e.2 ++ (List.replicate fm.len 0).drop e.2.length))
        if e.2.length ≠ fm.len then throwM (.WrongSize fm.len e.2.length)
        else if P.blake3 e.2 ≠ fm.hash then
          throwM (.WrongHash fm.hash (P.blake3 e.2))
        else pure ()

/-- The diff-phase entry loop of `install_patch`. -/
def diffLoop (P : Prims) (old_install_dir new_install_dir : FPath)
    (diff_files : List FileManifest) :
    List (FPath × Bytes) → List FPath → M (List FPath)
  | [], acc => pure acc
  | e :: es, acc => do
      let acc' ← processDiffEntry P old_install_dir new_install_dir diff_files acc e
      diffLoop P old_install_dir new_install_dir diff_files es acc'

/-- The new-phase entry loop of `install_patch`. -/
def newLoop (P : Prims) (new_install_dir : FPath) (new_files : List FileManifest) :
    List (FPath × Bytes) → M Unit
  | [] => pure ()
  | e :: es => do
      processNewEntry P new_install_dir new_files e
      newLoop P new_install_dir new_files es

/-- Sequential `remove_file` over a path list (stale files, then the
queued diff sources). -/
def removeAll : List FPath → M Unit
  | [] => pure ()
  | p :: ps => do
      mRemoveFile p
      removeAll ps

/-- `install::install_patch`: diff phase, new phase, save-directory
copies, stale-file removal, diff-source removal — in that order. -/
def install_patch (P : Prims) (remote : Remote) (channel : String) (version : Version)
    (platform_mf : PlatformManifest) (old_install_dir : Option FPath)
    (new_install_dir : FPath) (new_patch_mf : PatchManifest) : M Unit :=
  (if new_patch_mf.diff_files.isEmpty then pure []
   else
     match old_install_dir with
     | none => throwM .MissingPreviousVersion
     | some old_dir =>
         mFetch (.diffTar channel version platform_mf.os platform_mf.arch)
             (remote.diffTar channel version platform_mf.os platform_mf.arch) >>=
           fun entries =>
             diffLoop P old_dir new_install_dir new_patch_mf.diff_files entries []) >>=
  fun files_to_remove =>
  (if new_patch_mf.new_files.isEmpty then pure ()
   else
     mFetch (.rawTar channel version platform_mf.os platform_mf.arch)
         (remote.rawTar channel version platform_mf.os platform_mf.arch) >>=
       fun entries => newLoop P new_install_dir new_patch_mf.new_files entries) >>=
  fun _ =>
  (match old_install_dir with
   | some old_dir =>
       copy_dir (old_dir ++ ["PackWisely", "Saved", "Config"])
           (new_install_dir ++ ["PackWisely", "Saved", "Config"]) >>=
         fun _ =>
           copy_dir (old_dir ++ ["PackWisely", "Saved", "SaveGames"])
             (new_install_dir ++ ["PackWisely", "Saved", "SaveGames"])
   | none => pure ()) >>=
  fun _ =>
  (match old_install_dir with
   | some old_dir => removeAll (new_patch_mf.stale_files.map (fun f => old_dir ++ f))
   | none => pure ()) >>=
  fun _ => removeAll files_to_remove

/-- `install::do_install`: resolve the catalog, short-circuit on an
up-to-date install, create the target directory, fetch and apply the
patch, then commit the channel manifest.  Success carries `()`, exactly
as the Rust function's `Result<(), InstallError>` does. -/
def do_install (P : Prims) (host : Host) (remote : Remote) (install_dir : FPath) :
    M Unit := do
  let channels ← get_channels remote
  match channels.head? with
  | none => throwM .UnknownChannel
  | some channel_mf => do
      let channel_dir := install_dir ++ [channel_mf.name]
      let old_patch_mf ← verify_channel_dir channel_dir
      let versions ← get_versions remote channel_mf.name
      match versions.getLast? with
      | none => throwM .UnknownVersion
      | some version_mf =>
          if old_patch_mf.map (fun mf => mf.version) = some version_mf.version then
            pure ()
          else
            match get_platforms host version_mf with
            | .error e => throwM e
            | .ok platforms =>
                match platforms with
                | [] => throwM .UnsupportedArch
                | platform_mf :: _ => do
                    let old_install_dir := old_patch_mf.map
                      (fun mf => join_install_dir channel_dir mf.version platform_mf)
                    let new_install_dir :=
                      join_install_dir channel_dir version_mf.version platform_mf
                    mCreateDirAll new_install_dir
                    let new_patch_mf ← get_patch remote channel_mf.name
                      version_mf.version platform_mf.os platform_mf.arch
                    install_patch P remote channel_mf.name version_mf.version
                      platform_mf old_install_dir new_install_dir new_patch_mf
                    mCreateFile .IoErr (channel_dir ++ ["manifest.json"])
                      (.manifest new_patch_mf)

/-! ## lib.rs: the patch authoring pipeline -/

/-- The `visit_stream` worklist loop specialised to `lib.rs::get_files`:
collect the paths of regular files, enqueue directories.  Pure over the
snapshot, since enumeration does not write. -/
def visitLoop (fs : FS) :
    Nat → List FPath → List (Bool × FPath) → List FPath → Except IoKind (List FPath)
  | 0, _, _, _ => .error .fuelExhausted
  | fuel + 1, to_visit, [], acc =>
      match to_visit with
      | [] => .ok acc
      | d :: rest =>
          match fs.readDir d with
          | .error k => .error k
          | .ok children => visitLoop fs fuel rest children acc
  | fuel + 1, to_visit, e :: es, acc =>
      visitLoop fs fuel (if e.1 then e.2 :: to_visit else to_visit) es
        (if e.1 then acc else acc ++ [e.2])

/-- `lib.rs::get_files`: the set of regular files under `dir`, as the
list the traversal yields them in. -/
def get_files (dir : FPath) : M (List FPath) :=
  fun st =>
    match visitLoop st.fs (2 * (st.fs.dirs.length + st.fs.files.length) + 2) [dir] [] [] with
    | .ok l => (.ok l, st)
    | .error k => (.error (.IoErr k), st)

/-- `lib.rs::DiffResult`. -/
structure DiffResult where
  prev_version : Option Version
  new_files : List FPath
  diff_files : List FileManifest
  stale_files : List FPath
  diff_size : Nat
  deriving DecidableEq, Repr

/-- The old-signature entry loop of `do_create_diff`: a path absent from
the new tree is stale; otherwise it is removed from `new_files`, a delta
of the new content against the old signature is appended to `diff.tar`,
and a `FileManifest` of the new content is recorded. -/
def diffEntriesLoop (P : Prims) (new_dir : FPath) :
    List (FPath × Bytes) → List FPath → List FileManifest → List FPath →
    List (FPath × Bytes) →
    M (List FPath × List FileManifest × List FPath × List (FPath × Bytes))
  | [], new_files, diff_mfs, stale, out_diff => pure (new_files, diff_mfs, stale, out_diff)
  | (rel, sigBytes) :: es, new_files, diff_mfs, stale, out_diff => do
      let new_path := new_dir ++ rel
      if new_files.contains new_path then do
        let d ← mReadFile .IoErr new_path
        let new_buf := d.toBytes
        match P.rdiff sigBytes new_buf with
        | none => throwM .DiffCreateErr
        | some delta =>
            diffEntriesLoop P new_dir es (new_files.erase new_path)
              (diff_mfs ++ [{ path := rel, len := new_buf.length, hash := P.blake3 new_buf }])
              stale (out_diff ++ [(rel, delta)])
      else
        diffEntriesLoop P new_dir es new_files diff_mfs (stale ++ [rel]) out_diff

/-- `lib.rs::do_create_diff`: load the prior manifest from
`out_dir/manifest.json`, open the old `sig.tar`, create `out_dir/diff.tar`,
enumerate the new tree and run the signature-entry loop. -/
def do_create_diff (P : Prims) (out_dir new_dir old_dir : FPath) : M DiffResult := do
  let mfData ← mReadFile .IoErr (out_dir ++ ["manifest.json"])
  match mfData with
  | .manifest old_patch_mf => do
      let sigData ← mReadFile .IoErr (old_dir ++ ["sig.tar"])
      let sig_entries ←
        match sigData with
        | .tar es => pure es
        | _ => throwM (.IoErr .other)
      mCreateFile .IoErr (out_dir ++ ["diff.tar"]) (.tar [])
      let new_files0 ← get_files new_dir
      let r ← diffEntriesLoop P new_dir sig_entries new_files0 [] [] []
      mSetFile (out_dir ++ ["diff.tar"]) (.tar r.2.2.2)
      pure { prev_version := some old_patch_mf.version, new_files := r.1,
             diff_files := r.2.1, stale_files := r.2.2.1,
             diff_size := (FileData.tar r.2.2.2).size }
  | _ => throwM .JsonErr

/-- The new-file loop of `do_create_patch`: for every remaining file,
append its raw content to `raw.tar`, its signature to `sig.tar`, and
record a `FileManifest` of its content. -/
def newFilesLoop (P : Prims) (new_dir : FPath) :
    List FPath → List FileManifest → List (FPath × Bytes) → List (FPath × Bytes) →
    M (List FileManifest × List (FPath × Bytes) × List (FPath × Bytes))
  | [], mfs, raws, sigs => pure (mfs, raws, sigs)
  | f :: files, mfs, raws, sigs => do
      match dropRoot new_dir f with
      | none => throwM .StripRootFailed
      | some rel => do
          let d ← mReadFile .IoErr f
          let src := d.toBytes
          newFilesLoop P new_dir files
            (mfs ++ [{ path := rel, len := src.length, hash := P.blake3 src }])
            (raws ++ [(rel, src)])
            (sigs ++ [(rel, P.signature src)])

/-- `lib.rs::CreatePatchResult`. -/
structure CreatePatchResult where
  manifest : PatchManifest
  patch_size : Nat
  deriving DecidableEq, Repr

/-- `lib.rs::do_create_patch`.  Note the code order: `raw.tar`,
`sig.tar` and `manifest.json` are created (truncated) in `out_dir`
before `do_create_diff` runs.  Version parsing is modelled as the
identity on the opaque version string. -/
def do_create_patch (P : Prims) (out_dir new_dir : FPath) (old_dir : Option FPath)
    (version : Version) : M CreatePatchResult := do
  mCreateFile .IoErr (out_dir ++ ["raw.tar"]) (.tar [])
  mCreateFile .IoErr (out_dir ++ ["sig.tar"]) (.tar [])
  mCreateFile .IoErr (out_dir ++ ["manifest.json"]) (.bytes [])
  let diff_result ←
    match old_dir with
    | some od => do_create_diff P out_dir new_dir od
    | none => do
        let nf ← get_files new_dir
        pure { prev_version := none, new_files := nf, diff_files := [],
               stale_files := [], diff_size := 0 : DiffResult }
  let r ← newFilesLoop P new_dir diff_result.new_files [] [] []
  let manifest : PatchManifest :=
    { manifest_version := .V1, version := version,
      previous_version := diff_result.prev_version,
      new_files := r.1, diff_files := diff_result.diff_files,
      stale_files := diff_result.stale_files }
  mSetFile (out_dir ++ ["manifest.json"]) (.manifest manifest)
  mSetFile (out_dir ++ ["raw.tar"]) (.tar r.2.1)
  mSetFile (out_dir ++ ["sig.tar"]) (.tar r.2.2)
  pure { manifest := manifest,
         patch_size := diff_result.diff_size + (FileData.tar r.2.2).size +
           (FileData.tar r.2.1).size + (FileData.manifest manifest).size }

/-- The `create_patch` tauri command: an empty `old_dir` argument means
no old directory (`(!old_dir.is_empty()).then(..)`); the empty string
has no path components. -/
def create_patch (P : Prims) (out_dir new_dir old_dir : FPath) (version : Version) :
    M CreatePatchResult :=
  do_create_patch P out_dir new_dir (if old_dir = [] then none else some old_dir) version

/-! ## Concrete instances used to exercise the model -/

/-- A concrete instantiation of the external primitives, used for
closed-form runs: the hash is the content itself, a signature is the
content, a delta is the new content and applying a delta emits it. -/
def P0 : Prims :=
  { blake3 := fun b => b
    signature := fun b => b
    rdiff := fun _ n => some n
    applyLimited := fun _ d _ => some d }

/-- A linux/x86_64 host without wine. -/
def linuxHost : Host :=
  { os := "linux", arch := "x86_64", family := "unix", winePresent := false }

/-- Patch manifest of a one-file full install (for a fresh-install run). -/
def freshPatchMf : PatchManifest :=
  { manifest_version := .V1, version := "2", previous_version := none,
    new_files := [{ path := ["game"], len := 1, hash := [7] }],
    diff_files := [], stale_files := [] }

/-- Catalog serving one channel, one version and `freshPatchMf`. -/
def freshRemote : Remote :=
  { channels := [{ name := "stable" }]
    versions := fun _ =>
      [{ version := "2",
         platforms := [{ os := "linux", arch := "x86_64", exe_path := "game" }] }]
    patchManifest := fun _ _ _ _ => freshPatchMf
    diffTar := fun _ _ _ _ => []
    rawTar := fun _ _ _ _ => [(["game"], [7])] }

/-- An install root with no prior install. -/
def freshSt : St := { fs := { files := [], dirs := [["inst"]] }, log := [] }

/-- A prior patch manifest at version 1. -/
def priorPatchMf : PatchManifest :=
  { manifest_version := .V1, version := "1", previous_version := none,
    new_files := [], diff_files := [], stale_files := [] }

/-- An authoring state: `out` holds the previously emitted
`manifest.json`, `old` holds the previous `sig.tar`, `new` is the (empty)
new tree. -/
def authorSt : St :=
  { fs := { files := [(["out", "manifest.json"], .manifest priorPatchMf),
                      (["old", "sig.tar"], .tar [])],
            dirs := [["out"], ["old"], ["new"]] },
    log := [] }

/-- Catalog whose `raw.tar.zst` entry is one byte short of the manifest's
`len` (a truncated transfer). -/
def shortEntryRemote : Remote :=
  { channels := [{ name := "stable" }]
    versions := fun _ =>
      [{ version := "2",
         platforms := [{ os := "linux", arch := "x86_64", exe_path := "game" }] }]
    patchManifest := fun _ _ _ _ =>
      { manifest_version := .V1, version := "2", previous_version := none,
        new_files := [{ path := ["f"], len := 2, hash := [5, 6] }],
        diff_files := [], stale_files := [] }
    diffTar := fun _ _ _ _ => []
    rawTar := fun _ _ _ _ => [(["f"], [5])] }

/-- Source tree with two sibling files (for `copy_dir`). -/
def twoFileSt : St :=
  { fs := { files := [(["s", "a"], .bytes [1]), (["s", "b"], .bytes [2])],
            dirs := [["s"]] },
    log := [] }

/-- The installed version-1 directory of the retry scenario. -/
def oldInstDir : FPath := ["inst", "stable", "1", "linux-x86_64"]

/-- The version-2 target directory of the retry scenario. -/
def newInstDir : FPath := ["inst", "stable", "2", "linux-x86_64"]

/-- Patch manifest of the retry scenario: one new file under
`PackWisely/Saved/` and one stale path that does not exist on disk. -/
def retryPatchMf : PatchManifest :=
  { manifest_version := .V1, version := "2", previous_version := some "1",
    new_files := [{ path := ["PackWisely", "Saved", "readme"], len := 1, hash := [7] }],
    diff_files := [], stale_files := [["ghost"]] }

/-- Catalog of the retry scenario. -/
def retryRemote : Remote :=
  { channels := [{ name := "stable" }]
    versions := fun _ =>
      [{ version := "2",
         platforms := [{ os := "linux", arch := "x86_64", exe_path := "game" }] }]
    patchManifest := fun _ _ _ _ => retryPatchMf
    diffTar := fun _ _ _ _ => []
    rawTar := fun _ _ _ _ => [(["PackWisely", "Saved", "readme"], [7])] }

/-- On-disk state of the retry scenario: version 1 installed (channel
manifest present) with save files under `PackWisely/Saved/`. -/
def retrySt : St :=
  { fs := { files := [(["inst", "stable", "manifest.json"], .manifest priorPatchMf),
                      (oldInstDir ++ ["PackWisely", "Saved", "Config", "cfg"], .bytes [1]),
                      (oldInstDir ++ ["PackWisely", "Saved", "SaveGames", "s0"], .bytes [2])],
            dirs := [["inst"], ["inst", "stable"], ["inst", "stable", "1"], oldInstDir,
                     oldInstDir ++ ["PackWisely"], oldInstDir ++ ["PackWisely", "Saved"],
                     oldInstDir ++ ["PackWisely", "Saved", "Config"],
                     oldInstDir ++ ["PackWisely", "Saved", "SaveGames"]] },
    log := [] }

/-! ## C1, C2, C4, C7: closed runs exhibiting the code-level divergences -/

/-- C1: the claim says a successful `install` returns
`new_install_dir / platform.exe_path`.  In the code, `do_install` has
return type `Result<(), InstallError>` and both return sites yield
`Ok(())` — the platform's `exe_path` is never used, even though the
caller in lib.rs binds the result as `exe_path`.  This closed run
succeeds, installs `game` under the new install directory, and returns
the unit value, not a path. -/
theorem do_install_success_returns_unit :
    (do_install P0 linuxHost freshRemote ["inst"] freshSt).1 = .ok () ∧
    (do_install P0 linuxHost freshRemote ["inst"] freshSt).2.fs.getFile
      (newInstDir ++ ["game"]) = some (.bytes [7]) := by
  decide

/-- C2: the claim says `create_patch` with an `old_dir` loads the prior
`PatchManifest` from `out_dir/manifest.json` and emits
`previous_version = Some(prior.version)`.  In the code,
`File::create(out_dir/manifest.json)` truncates that very file before
`do_create_diff` reads it back, so the read yields empty data and JSON
parsing fails: with an `old_dir` the run always errors and nothing is
emitted.  Without an `old_dir` the emitted `previous_version` is `None`,
as claimed. -/
theorem create_patch_with_old_dir_always_fails :
    authorSt.fs.getFile (["out"] ++ ["manifest.json"]) = some (.manifest priorPatchMf) ∧
    (do_create_patch P0 ["out"] ["new"] (some ["old"]) "2" authorSt).1 = .error .JsonErr ∧
    ((do_create_patch P0 ["out"] ["new"] none "2" authorSt).1.map
      (fun r => r.manifest.previous_version)) = .ok none := by
  decide

/-- C4: the claim says that after an install attempt fails partway
(possibly leaving already-copied save files), re-running install from
the same prior installed version succeeds.  In this closed run the first
attempt copies the save files and then fails removing a missing stale
file, leaving the channel manifest at version 1; the retry then fails in
the save-copy phase, because `copy_dir` refuses to clobber
(`create_dir` on the already-created save directory yields
`AlreadyExists`). -/
theorem install_retry_after_partial_failure_fails :
    (do_install P0 linuxHost retryRemote ["inst"] retrySt).1 = .error (.IoErr .notFound) ∧
    (do_install P0 linuxHost retryRemote ["inst"] retrySt).2.fs.getFile
      (newInstDir ++ ["PackWisely", "Saved", "Config", "cfg"]) = some (.bytes [1]) ∧
    (do_install P0 linuxHost retryRemote ["inst"] retrySt).2.fs.getFile
      ["inst", "stable", "manifest.json"] = some (.manifest priorPatchMf) ∧
    (do_install P0 linuxHost retryRemote ["inst"]
      (do_install P0 linuxHost retryRemote ["inst"] retrySt).2).1 =
      .error (.CopyErr (.ioErr .alreadyExists)) := by
  decide

/-- C7: the claim says `copy_dir` copies every regular file and fails
exactly when a destination file already exists.  In this closed run the
source holds two sibling files and no destination exists at all, yet the
copy fails: the second entry's `create_dir` of the already-created
destination directory yields `AlreadyExists` (the code uses `create_dir`,
not `create_dir_all`, for every entry).  Only the first file is copied. -/
theorem copy_dir_fails_with_two_sibling_files :
    twoFileSt.fs.getFile ["d", "a"] = none ∧
    twoFileSt.fs.getFile ["d", "b"] = none ∧
    (copy_dir ["s"] ["d"] twoFileSt).1 = .error (.CopyErr (.ioErr .alreadyExists)) ∧
    (copy_dir ["s"] ["d"] twoFileSt).2.fs.getFile ["d", "a"] = some (.bytes [1]) ∧
    (copy_dir ["s"] ["d"] twoFileSt).2.fs.getFile ["d", "b"] = none := by
  decide

/-- C5 (counterexample): the claim says that if the produced file's size
differs from `expected_len` the run fails `WrongSize`, and otherwise, if
its BLAKE3 hash differs from `expected_hash`, it fails `WrongHash`.
Here the archive entry is one byte short: the pre-sized
(`set_len(expected_len)`) output file ends up with size exactly
`expected_len = 2` and a hash differing from the expected one, yet the
run fails `WrongSize{2, 1}` — the code compares the stream position
(bytes written), not the file size. -/
theorem install_wrong_size_despite_matching_file_size :
    (do_install P0 linuxHost shortEntryRemote ["inst"] freshSt).1 = .error (.WrongSize 2 1) ∧
    (do_install P0 linuxHost shortEntryRemote ["inst"] freshSt).2.fs.getFile
      (newInstDir ++ ["f"]) = some (.bytes [5, 0]) ∧
    (FileData.bytes [5, 0]).size = 2 ∧
    P0.blake3 [5, 0] ≠ [5, 6] := by
  decide

/-! ## C6: the version short-circuit -/

/-- C6: if the installed channel manifest parses and its version equals
the version selected from the catalog (the last entry of
`versions.json`), `do_install` returns success at once: the filesystem is
untouched and the fetch log records only `channels.json` and
`versions.json` — no platform manifest and no archive. -/
theorem install_short_circuit_is_noop
    (P : Prims) (host : Host) (remote : Remote) (install_dir : FPath) (st : St)
    (ch : ChannelManifest) (chs : List ChannelManifest) (mf : PatchManifest)
    (vmf : VersionManifest)
    (hch : remote.channels = ch :: chs)
    (hmf : st.fs.getFile ((install_dir ++ [ch.name]) ++ ["manifest.json"]) =
      some (.manifest mf))
    (hv : (remote.versions ch.name).getLast? = some vmf)
    (heq : mf.version = vmf.version) :
    do_install P host remote install_dir st =
      (.ok (), { st with log := st.log ++ [.channels, .versions ch.name] }) := by
  unfold do_install
  simp only [M.bind_def, get_channels, get_versions, mFetch, verify_channel_dir, hch, hmf, hv,
    List.head?, Option.map, heq]
  simp [M.pure_def]

/-- Catalog serving the already-installed version (for the short-circuit
witness). -/
def currentRemote : Remote :=
  { channels := [{ name := "stable" }]
    versions := fun _ => [{ version := "1", platforms := [] }]
    patchManifest := fun _ _ _ _ => priorPatchMf
    diffTar := fun _ _ _ _ => []
    rawTar := fun _ _ _ _ => [] }

/-- An install root where version 1 is already installed. -/
def installedSt : St :=
  { fs := { files := [(["inst", "stable", "manifest.json"], .manifest priorPatchMf)],
            dirs := [["inst"], ["inst", "stable"]] },
    log := [] }

/-- Witness for C6: a concrete up-to-date install is a no-op. -/
theorem install_short_circuit_is_noop_witness :
    do_install P0 linuxHost currentRemote ["inst"] installedSt =
      (.ok (), { installedSt with
        log := installedSt.log ++ [.channels, .versions "stable"] }) :=
  install_short_circuit_is_noop P0 linuxHost currentRemote ["inst"] installedSt
    { name := "stable" } [] priorPatchMf { version := "1", platforms := [] }
    rfl (by decide) rfl rfl

/-! ## C9: catalog resolution -/

/-- Platform selection as the spec describes it: filter by host OS,
append `windows` entries when wine is detected on a unix host, fail
`UnsupportedOS` on empty, filter by host arch, fail `UnsupportedArch` on
empty, and choose the first remaining entry. -/
def choosePlatformSpec (host : Host) (platforms : List PlatformManifest) :
    Except Err PlatformManifest :=
  let exact := platforms.filter (fun mf => mf.os == host.os)
  let candidates :=
    if host.family = "unix" ∧ host.winePresent then
      exact ++ platforms.filter (fun mf => mf.os == "windows")
    else exact
  if candidates.isEmpty then .error .UnsupportedOS
  else
    match candidates.filter (fun mf => mf.arch == host.arch) with
    | [] => .error .UnsupportedArch
    | p :: _ => .ok p

/-- The arch-filtering tail of `get_platforms` agrees with the spec-side
chooser on any candidate list. -/
theorem platformChoiceTail (host : Host) (l : List PlatformManifest) :
    Except.map List.head?
      (if l.isEmpty then (.error .UnsupportedOS : Except Err (List PlatformManifest))
       else if (l.filter (fun mf => mf.arch == host.arch)).isEmpty then
         .error .UnsupportedArch
       else .ok (l.filter (fun mf => mf.arch == host.arch))) =
    Except.map (fun p => some p)
      (if l.isEmpty then (.error .UnsupportedOS : Except Err PlatformManifest)
       else match l.filter (fun mf => mf.arch == host.arch) with
            | [] => .error .UnsupportedArch
            | p :: _ => .ok p) := by
  cases hl : l.isEmpty
  · simp only [hl, Bool.false_eq_true, if_false]
    cases hf : l.filter (fun mf => mf.arch == host.arch) with
    | nil => simp only [hf]; rfl
    | cons p rest => simp only [hf]; rfl
  · simp only [hl, if_true]; rfl

/-- C9: catalog resolution picks channel index 0 (`UnknownChannel` when
the channel list is empty) and the last element of the version list
(`UnknownVersion` when empty); platform filtering behaves exactly as the
spec-side chooser (host-OS matches first, wine-backed `windows` entries
appended only on a unix host with wine, `UnsupportedOS` then
`UnsupportedArch` on empty lists, first remaining entry chosen, which is
the head of `get_platforms`); and the last version is the one platform
selection runs on. -/
theorem catalog_resolution_follows_spec :
    (∀ (P : Prims) (host : Host) (remote : Remote) (dir : FPath) (st : St),
      remote.channels = [] →
      (do_install P host remote dir st).1 = .error .UnknownChannel) ∧
    (∀ (P : Prims) (host : Host) (remote : Remote) (dir : FPath) (st : St)
      (ch : ChannelManifest) (chs : List ChannelManifest),
      remote.channels = ch :: chs →
      st.fs.getFile ((dir ++ [ch.name]) ++ ["manifest.json"]) = none →
      remote.versions ch.name = [] →
      (do_install P host remote dir st).1 = .error .UnknownVersion) ∧
    (∀ (host : Host) (vmf : VersionManifest),
      Except.map List.head? (get_platforms host vmf) =
        Except.map (fun p => some p) (choosePlatformSpec host vmf.platforms)) ∧
    (∀ (P : Prims) (host : Host) (remote : Remote) (dir : FPath) (st : St)
      (ch : ChannelManifest) (chs : List ChannelManifest)
      (vs : List VersionManifest) (vmf : VersionManifest) (e : Err),
      remote.channels = ch :: chs →
      st.fs.getFile ((dir ++ [ch.name]) ++ ["manifest.json"]) = none →
      remote.versions ch.name = vs →
      vs.getLast? = some vmf →
      get_platforms host vmf = .error e →
      (do_install P host remote dir st).1 = .error e) := by
  refine ⟨?_, ?_, ?_, ?_⟩
  · intro P host remote dir st h
    unfold do_install
    simp only [M.bind_def, get_channels, mFetch, h, List.head?]
    rfl
  · intro P host remote dir st ch chs hch hmf hv
    unfold do_install
    simp only [M.bind_def, get_channels, get_versions, mFetch, verify_channel_dir, hch, hmf,
      hv, List.head?, List.getLast?]
    rfl
  · intro host vmf
    unfold get_platforms choosePlatformSpec get_wine_path
    by_cases hw : host.family = "unix" ∧ host.winePresent
    · simp only [hw, if_true, Option.isSome_some]
      exact platformChoiceTail host _
    · simp only [hw, if_false, Option.isSome_none]
      exact platformChoiceTail host _
  · intro P host remote dir st ch chs vs vmf e hch hmf hv hl hp
    unfold do_install
    simp only [M.bind_def, get_channels, get_versions, mFetch, verify_channel_dir, hch, hmf,
      hv, hl, List.head?, Option.map, hp]
    rfl

/-- Catalog with no channels at all. -/
def noChannelRemote : Remote :=
  { channels := []
    versions := fun _ => []
    patchManifest := fun _ _ _ _ => priorPatchMf
    diffTar := fun _ _ _ _ => []
    rawTar := fun _ _ _ _ => [] }

/-- Catalog with a channel but no versions. -/
def noVersionRemote : Remote :=
  { channels := [{ name := "stable" }]
    versions := fun _ => []
    patchManifest := fun _ _ _ _ => priorPatchMf
    diffTar := fun _ _ _ _ => []
    rawTar := fun _ _ _ _ => [] }

/-- Catalog whose only version has no platforms. -/
def noPlatformRemote : Remote :=
  { channels := [{ name := "stable" }]
    versions := fun _ => [{ version := "9", platforms := [] }]
    patchManifest := fun _ _ _ _ => priorPatchMf
    diffTar := fun _ _ _ _ => []
    rawTar := fun _ _ _ _ => [] }

/-- Witness for C9: each catalog-resolution behaviour at concrete
inputs. -/
theorem catalog_resolution_follows_spec_witness :
    (do_install P0 linuxHost noChannelRemote ["inst"] freshSt).1 =
      .error .UnknownChannel ∧
    (do_install P0 linuxHost noVersionRemote ["inst"] freshSt).1 =
      .error .UnknownVersion ∧
    Except.map List.head?
      (get_platforms linuxHost { version := "9", platforms := [] }) =
      Except.map (fun p => some p) (choosePlatformSpec linuxHost []) ∧
    (do_install P0 linuxHost noPlatformRemote ["inst"] freshSt).1 =
      .error .UnsupportedOS :=
  ⟨catalog_resolution_follows_spec.1 P0 linuxHost noChannelRemote ["inst"] freshSt rfl,
   catalog_resolution_follows_spec.2.1 P0 linuxHost noVersionRemote ["inst"] freshSt
     { name := "stable" } [] rfl (by decide) rfl,
   catalog_resolution_follows_spec.2.2.1 linuxHost { version := "9", platforms := [] },
   catalog_resolution_follows_spec.2.2.2 P0 linuxHost noPlatformRemote ["inst"] freshSt
     { name := "stable" } [] [{ version := "9", platforms := [] }]
     { version := "9", platforms := [] } .UnsupportedOS rfl (by decide) rfl rfl (by decide)⟩

/-! ## C8: path-set disjointness of emitted manifests -/

/-- Every `create_patch` run given an `old_dir` fails: the upfront
`File::create(out_dir/manifest.json)` truncates the prior manifest that
`do_create_diff` immediately tries to read back, so JSON decoding fails
(and if any of the upfront creates fails, the run fails there). -/
theorem do_create_patch_with_old_dir_fails (P : Prims) (out_dir new_dir od : FPath)
    (version : Version) (st : St) (r : CreatePatchResult) :
    (do_create_patch P out_dir new_dir (some od) version st).1 ≠ .ok r := by
  unfold do_create_patch
  simp only [M.bind_def, mCreateFile, liftFS]
  cases hc1 : st.fs.createFile (out_dir ++ ["raw.tar"]) (.tar []) with
  | error k => simp [hc1, Except.map]
  | ok fs1 =>
      simp only [hc1, Except.map]
      cases hc2 : fs1.createFile (out_dir ++ ["sig.tar"]) (.tar []) with
      | error k => simp [hc2, Except.map]
      | ok fs2 =>
          simp only [hc2, Except.map]
          cases hc3 : fs2.createFile (out_dir ++ ["manifest.json"]) (.bytes []) with
          | error k => simp [hc3, Except.map]
          | ok fs3 =>
              simp only [hc3, Except.map]
              have h3 : fs3.getFile (out_dir ++ ["manifest.json"]) = some (.bytes []) := by
                rw [createFile_ok_eq fs2 fs3 _ _ hc3]
                exact getFile_setFile_self fs2 _ _
              unfold do_create_diff
              simp only [M.bind_def, mReadFile, FS.readFile, h3]
              simp [throwM]

/-- C8: in every `PatchManifest` a `create_patch` run actually emits, the
path sets of `new_files` and `diff_files` are disjoint and no
`stale_files` path occurs in either.  The only emitting runs are the
full-install ones (an `old_dir` run always fails before emitting, by
`do_create_patch_with_old_dir_fails`), and those have empty `diff_files`
and `stale_files`. -/
theorem create_patch_manifest_sets_disjoint
    (P : Prims) (out_dir new_dir : FPath) (old_dir : Option FPath) (version : Version)
    (st : St) (r : CreatePatchResult) (st' : St)
    (h : do_create_patch P out_dir new_dir old_dir version st = (.ok r, st')) :
    (∀ f ∈ r.manifest.new_files, ∀ g ∈ r.manifest.diff_files, f.path ≠ g.path) ∧
    (∀ s ∈ r.manifest.stale_files,
      (∀ f ∈ r.manifest.new_files, s ≠ f.path) ∧
      (∀ g ∈ r.manifest.diff_files, s ≠ g.path)) := by
  have hds : r.manifest.diff_files = [] ∧ r.manifest.stale_files = [] := by
    cases old_dir with
    | some od =>
        exact absurd (by rw [h])
          (do_create_patch_with_old_dir_fails P out_dir new_dir od version st r)
    | none =>
        unfold do_create_patch at h
        simp only [M.bind_def, mCreateFile, liftFS] at h
        cases hc1 : st.fs.createFile (out_dir ++ ["raw.tar"]) (.tar []) with
        | error k => rw [hc1] at h; simp [Except.map] at h
        | ok fs1 =>
        rw [hc1] at h
        simp only [Except.map] at h
        cases hc2 : fs1.createFile (out_dir ++ ["sig.tar"]) (.tar []) with
        | error k => rw [hc2] at h; simp [Except.map] at h
        | ok fs2 =>
        rw [hc2] at h
        simp only [Except.map] at h
        cases hc3 : fs2.createFile (out_dir ++ ["manifest.json"]) (.bytes []) with
        | error k => rw [hc3] at h; simp [Except.map] at h
        | ok fs3 =>
        rw [hc3] at h
        simp only [Except.map, get_files] at h
        cases hv : visitLoop fs3 (2 * (fs3.dirs.length + fs3.files.length) + 2)
            [new_dir] [] [] with
        | error k => rw [hv] at h; simp at h
        | ok files =>
        rw [hv] at h
        simp only [M.pure_def] at h
        cases hn : newFilesLoop P new_dir files [] [] [] { fs := fs3, log := st.log } with
        | mk res4 st4 =>
        rw [hn] at h
        cases res4 with
        | error e => simp at h
        | ok trip =>
        simp only [M.bind_def, mSetFile, M.pure_def] at h
        simp only [Prod.mk.injEq, Except.ok.injEq] at h
        obtain ⟨hr, h2⟩ := h
        rw [← hr]
        exact ⟨rfl, rfl⟩
  rcases hds with ⟨hd, hs⟩
  refine ⟨?_, ?_⟩
  · intro f _ g hg
    rw [hd] at hg
    cases hg
  · intro s hsmem
    rw [hs] at hsmem
    cases hsmem

/-- Authoring state with a one-file new tree (`n/x`) and an empty output
directory `o`. -/
def soloFileSt : St :=
  { fs := { files := [(["n", "x"], .bytes [3])], dirs := [["o"], ["n"]] }, log := [] }

/-- The result the solo-file full-install authoring run emits. -/
def soloFileResult : CreatePatchResult :=
  { manifest := { manifest_version := .V1, version := "1", previous_version := none,
                  new_files := [{ path := ["x"], len := 1, hash := [3] }],
                  diff_files := [], stale_files := [] },
    patch_size := 3 }

/-- Witness for C8: the disjointness facts at a concrete emitting run. -/
theorem create_patch_manifest_sets_disjoint_witness :
    (∀ f ∈ soloFileResult.manifest.new_files,
      ∀ g ∈ soloFileResult.manifest.diff_files, f.path ≠ g.path) ∧
    (∀ s ∈ soloFileResult.manifest.stale_files,
      (∀ f ∈ soloFileResult.manifest.new_files, s ≠ f.path) ∧
      (∀ g ∈ soloFileResult.manifest.diff_files, s ≠ g.path)) :=
  create_patch_manifest_sets_disjoint P0 ["o"] ["n"] none "1" soloFileSt
    soloFileResult (do_create_patch P0 ["o"] ["n"] none "1" soloFileSt).2 (by decide)

/-! ## C3: the channel manifest is only written by a fully successful install -/

def FilesAgreeBelow (n : Nat) (fs fs' : FS) : Prop :=
  ∀ p : FPath, p.length ≤ n → fs'.getFile p = fs.getFile p

theorem filesAgreeBelow_refl (n : Nat) (fs : FS) : FilesAgreeBelow n fs fs :=
  fun _ _ => rfl

theorem filesAgreeBelow_trans {n : Nat} {a b c : FS}
    (h1 : FilesAgreeBelow n a b) (h2 : FilesAgreeBelow n b c) :
    FilesAgreeBelow n a c :=
  fun p hp => (h2 p hp).trans (h1 p hp)

def PreservesBelow (n : Nat) {α : Type} (m : M α) : Prop :=
  ∀ st : St, FilesAgreeBelow n st.fs ((m st).2).fs

theorem preservesBelow_pure {n : Nat} {α : Type} (a : α) :
    PreservesBelow n (pure a : M α) :=
  fun st => filesAgreeBelow_refl n st.fs

theorem preservesBelow_throwM {n : Nat} {α : Type} (e : Err) :
    PreservesBelow n (throwM e : M α) :=
  fun st => filesAgreeBelow_refl n st.fs

theorem preservesBelow_bind {n : Nat} {α β : Type} {x : M α} {f : α → M β}
    (hx : PreservesBelow n x) (hf : ∀ a, PreservesBelow n (f a)) :
    PreservesBelow n (x >>= f) := by
  intro st
  have hx' := hx st
  rw [show ((x >>= f) st) = match x st with
      | (.ok a, st') => f a st'
      | (.error e, st') => (.error e, st') from rfl]
  cases hxe : x st with
  | mk rx st1 =>
      rw [hxe] at hx'
      cases rx with
      | error e => exact hx'
      | ok a => exact filesAgreeBelow_trans hx' (hf a st1)

theorem preservesBelow_setFile {n : Nat} (p : FPath) (d : FileData)
    (h : n < p.length) : PreservesBelow n (mSetFile p d) := by
  intro st q hq
  have hne : ¬ q = p := fun hc => by subst hc; exact absurd h (by omega)
  exact getFile_setFile_ne st.fs p q d hne

theorem preservesBelow_createFile {n : Nat} (w : IoKind → Err) (p : FPath) (d : FileData)
    (h : n < p.length) : PreservesBelow n (mCreateFile w p d) := by
  intro st q hq
  have hne : ¬ q = p := fun hc => by subst hc; exact absurd h (by omega)
  show ((mCreateFile w p d st).2).fs.getFile q = st.fs.getFile q
  unfold mCreateFile liftFS
  cases hc : st.fs.createFile p d with
  | error k => simp [hc, Except.map]
  | ok fs1 =>
      simp only [hc, Except.map]
      rw [createFile_ok_eq st.fs fs1 p d hc]
      exact getFile_setFile_ne st.fs p q d hne

theorem preservesBelow_createNewFile {n : Nat} (w : IoKind → Err) (p : FPath) (d : FileData)
    (h : n < p.length) : PreservesBelow n (mCreateNewFile w p d) := by
  intro st q hq
  have hne : ¬ q = p := fun hc => by subst hc; exact absurd h (by omega)
  show ((mCreateNewFile w p d st).2).fs.getFile q = st.fs.getFile q
  unfold mCreateNewFile liftFS
  cases hc : st.fs.createNewFile p d with
  | error k => simp [hc, Except.map]
  | ok fs1 =>
      simp only [hc, Except.map]
      rw [createNewFile_ok_eq st.fs fs1 p d hc]
      exact getFile_setFile_ne st.fs p q d hne

theorem preservesBelow_removeFile {n : Nat} (p : FPath)
    (h : n < p.length) : PreservesBelow n (mRemoveFile p) := by
  intro st q hq
  have hne : ¬ q = p := fun hc => by subst hc; exact absurd h (by omega)
  show ((mRemoveFile p st).2).fs.getFile q = st.fs.getFile q
  unfold mRemoveFile liftFS
  cases hc : st.fs.removeFile p with
  | error k => simp [hc, Except.map]
  | ok fs1 =>
      simp only [hc, Except.map]
      exact getFile_removeFile_ne st.fs fs1 p q hne hc

theorem preservesBelow_createDirAll {n : Nat} (p : FPath) :
    PreservesBelow n (mCreateDirAll p) :=
  fun _ _ _ => rfl

theorem preservesBelow_createDir {n : Nat} (w : IoKind → Err) (p : FPath) :
    PreservesBelow n (mCreateDir w p) := by
  intro st q hq
  show ((mCreateDir w p st).2).fs.getFile q = st.fs.getFile q
  unfold mCreateDir liftFS
  cases hc : st.fs.createDir p with
  | error k => simp [hc, Except.map]
  | ok fs1 =>
      simp only [hc, Except.map]
      show fs1.getFile q = st.fs.getFile q
      unfold FS.getFile
      rw [createDir_ok_files st.fs fs1 p hc]

theorem preservesBelow_readFile {n : Nat} (w : IoKind → Err) (p : FPath) :
    PreservesBelow n (mReadFile w p) := by
  intro st q hq
  show ((mReadFile w p st).2).fs.getFile q = st.fs.getFile q
  unfold mReadFile
  cases st.fs.readFile p <;> rfl

theorem preservesBelow_readDir {n : Nat} (w : IoKind → Err) (p : FPath) :
    PreservesBelow n (mReadDir w p) := by
  intro st q hq
  show ((mReadDir w p st).2).fs.getFile q = st.fs.getFile q
  unfold mReadDir
  cases st.fs.readDir p <;> rfl

theorem preservesBelow_fetch {n : Nat} {α : Type} (key : FetchKey) (v : α) :
    PreservesBelow n (mFetch key v) :=
  fun _ _ _ => rfl

theorem preservesBelow_verify {n : Nat} (channel_dir : FPath) :
    PreservesBelow n (verify_channel_dir channel_dir) := by
  intro st q hq
  show ((verify_channel_dir channel_dir st).2).fs.getFile q = st.fs.getFile q
  unfold verify_channel_dir
  cases st.fs.getFile (channel_dir ++ ["manifest.json"]) with
  | none => rfl
  | some d => cases d <;> rfl

theorem preservesBelow_get_files {n : Nat} (dir : FPath) :
    PreservesBelow n (get_files dir) := by
  intro st q hq
  show ((get_files dir st).2).fs.getFile q = st.fs.getFile q
  unfold get_files
  cases visitLoop st.fs (2 * (st.fs.dirs.length + st.fs.files.length) + 2) [dir] [] [] <;> rfl

theorem preservesBelow_copyEntry {n : Nat} (src_dir dst_dir : FPath) (e : Bool × FPath)
    (h : n < dst_dir.length) : PreservesBelow n (copyEntry src_dir dst_dir e) := by
  unfold copyEntry
  cases dropRoot src_dir e.2 with
  | none => exact preservesBelow_throwM _
  | some rel =>
      by_cases hd : dst_dir ++ rel = []
      · simp only [hd, if_pos]
        exact preservesBelow_throwM _
      · simp only [hd, if_neg, if_false]
        have hlen : n < (dst_dir ++ rel).length := by
          rw [List.length_append]; omega
        exact preservesBelow_bind (preservesBelow_createDir _ _)
          (fun _ => preservesBelow_bind (preservesBelow_createNewFile _ _ _ hlen)
            (fun _ => preservesBelow_bind (preservesBelow_readFile _ _)
              (fun d => preservesBelow_setFile _ _ hlen)))

theorem preservesBelow_copyDirLoop {n : Nat} (src_dir dst_dir : FPath)
    (h : n < dst_dir.length) :
    ∀ (fuel : Nat) (tv : List FPath) (pend : List (Bool × FPath)),
      PreservesBelow n (copyDirLoop src_dir dst_dir fuel tv pend) := by
  intro fuel
  induction fuel with
  | zero => intro tv pend; exact preservesBelow_throwM _
  | succ f ih =>
      intro tv pend
      cases pend with
      | nil =>
          cases tv with
          | nil => exact preservesBelow_pure ()
          | cons d rest =>
              exact preservesBelow_bind (preservesBelow_readDir _ _)
                (fun children => ih rest children)
      | cons e es =>
          exact preservesBelow_bind (preservesBelow_copyEntry _ _ _ h)
            (fun _ => ih _ es)

theorem preservesBelow_copy_dir {n : Nat} (src_dir dst_dir : FPath)
    (h : n < dst_dir.length) : PreservesBelow n (copy_dir src_dir dst_dir) :=
  fun st => preservesBelow_copyDirLoop src_dir dst_dir h _ [src_dir] [] st

theorem preservesBelow_processNewEntry {n : Nat} (P : Prims) (nid : FPath)
    (nf : List FileManifest) (e : FPath × Bytes) (h : n < nid.length) :
    PreservesBelow n (processNewEntry P nid nf e) := by
  unfold processNewEntry
  cases mapLookup nf e.1 with
  | none => exact preservesBelow_throwM _
  | some fm =>
      by_cases hd : nid ++ e.1 = []
      · simp only [hd, if_pos]
        exact preservesBelow_throwM _
      · simp only [hd, if_neg, if_false]
        have hlen : n < (nid ++ e.1).length := by
          rw [List.length_append]; omega
        refine preservesBelow_bind (preservesBelow_createDirAll _) (fun _ => ?_)
        refine preservesBelow_bind (preservesBelow_createFile _ _ _ hlen) (fun _ => ?_)
        by_cases hs : e.2.length ≠ fm.len
        · rw [if_pos hs]
          exact preservesBelow_throwM _
        · rw [if_neg hs]
          by_cases hh : P.blake3 e.2 ≠ fm.hash
          · rw [if_pos hh]
            exact preservesBelow_throwM _
          · rw [if_neg hh]
            exact preservesBelow_pure ()

theorem preservesBelow_processDiffEntry {n : Nat} (P : Prims) (oid nid : FPath)
    (df : List FileManifest) (acc : List FPath) (e : FPath × Bytes) (h : n < nid.length) :
    PreservesBelow n (processDiffEntry P oid nid df acc e) := by
  unfold processDiffEntry
  cases mapLookup df e.1 with
  | none => exact preservesBelow_throwM _
  | some fm =>
      by_cases hd : nid ++ e.1 = []
      · simp only [hd, if_pos]
        exact preservesBelow_throwM _
      · simp only [hd, if_neg, if_false]
        have hlen : n < (nid ++ e.1).length := by
          rw [List.length_append]; omega
        refine preservesBelow_bind (preservesBelow_createDirAll _) (fun _ => ?_)
        refine preservesBelow_bind (preservesBelow_createFile _ _ _ hlen) (fun _ => ?_)
        refine preservesBelow_bind (preservesBelow_readFile _ _) (fun src => ?_)
        cases P.applyLimited src.toBytes e.2 fm.len with
        | none => exact preservesBelow_throwM _
        | some out =>
            refine preservesBelow_bind (preservesBelow_setFile _ _ hlen) (fun _ => ?_)
            by_cases hs : out.length ≠ fm.len
            · rw [if_pos hs]
              exact preservesBelow_throwM _
            · rw [if_neg hs]
              by_cases hh : P.blake3 (out ++ (List.replicate fm.len 0).drop out.length) ≠ fm.hash
              · rw [if_pos hh]
                exact preservesBelow_throwM _
              · rw [if_neg hh]
                exact preservesBelow_pure _

theorem preservesBelow_newLoop {n : Nat} (P : Prims) (nid : FPath)
    (nf : List FileManifest) (h : n < nid.length) :
    ∀ es : List (FPath × Bytes), PreservesBelow n (newLoop P nid nf es) := by
  intro es
  induction es with
  | nil => exact preservesBelow_pure ()
  | cons e es ih =>
      exact preservesBelow_bind (preservesBelow_processNewEntry P nid nf e h) (fun _ => ih)

theorem preservesBelow_diffLoop {n : Nat} (P : Prims) (oid nid : FPath)
    (df : List FileManifest) (h : n < nid.length) :
    ∀ (es : List (FPath × Bytes)) (acc : List FPath),
      PreservesBelow n (diffLoop P oid nid df es acc) := by
  intro es
  induction es with
  | nil => intro acc; exact preservesBelow_pure _
  | cons e es ih =>
      intro acc
      exact preservesBelow_bind (preservesBelow_processDiffEntry P oid nid df acc e h)
        (fun acc' => ih acc')

theorem preservesBelow_removeAll {n : Nat} :
    ∀ ps : List FPath, (∀ p ∈ ps, n < p.length) → PreservesBelow n (removeAll ps) := by
  intro ps
  induction ps with
  | nil => intro _; exact preservesBelow_pure ()
  | cons p ps ih =>
      intro hb
      exact preservesBelow_bind (preservesBelow_removeFile p (hb p (by simp)))
        (fun _ => ih (fun q hq => hb q (by simp [hq])))

theorem preservesBelow_bind_prop {n : Nat} {α β : Type} {x : M α} {f : α → M β}
    (Q : α → Prop) (hx : PreservesBelow n x)
    (hq : ∀ st a st', x st = (.ok a, st') → Q a)
    (hf : ∀ a, Q a → PreservesBelow n (f a)) : PreservesBelow n (x >>= f) := by
  intro st
  have hx' := hx st
  rw [show ((x >>= f) st) = match x st with
      | (.ok a, st') => f a st'
      | (.error e, st') => (.error e, st') from rfl]
  cases hxe : x st with
  | mk rx st1 =>
      rw [hxe] at hx'
      cases rx with
      | error e => exact hx'
      | ok a => exact filesAgreeBelow_trans hx' (hf a (hq st a st1 hxe) st1)

theorem processDiffEntry_ok_acc (P : Prims) (oid nid : FPath) (df : List FileManifest)
    (acc : List FPath) (e : FPath × Bytes) (st : St) (res : List FPath) (st' : St)
    (h : processDiffEntry P oid nid df acc e st = (.ok res, st')) :
    res = acc ++ [oid ++ e.1] := by
  unfold processDiffEntry at h
  cases hm : mapLookup df e.1 with
  | none => rw [hm] at h; simp [throwM] at h
  | some fm =>
      rw [hm] at h
      simp only [] at h
      by_cases hd : nid ++ e.1 = []
      · rw [if_pos hd] at h; simp [throwM] at h
      · rw [if_neg hd] at h
        simp only [M.bind_def, mCreateDirAll, mCreateFile, liftFS, mReadFile, mSetFile] at h
        cases hc : (st.fs.createDirAll (nid ++ e.1).dropLast).createFile (nid ++ e.1)
            (.bytes (List.replicate fm.len 0)) with
        | error k => rw [hc] at h; simp [Except.map] at h
        | ok fs1 =>
            rw [hc] at h
            simp only [Except.map] at h
            cases hr : fs1.readFile (oid ++ e.1) with
            | error k => rw [hr] at h; simp at h
            | ok src =>
                rw [hr] at h
                simp only [] at h
                cases hap : P.applyLimited src.toBytes e.2 fm.len with
                | none => rw [hap] at h; simp [throwM] at h
                | some out =>
                    rw [hap] at h
                    simp only [M.bind_def, mSetFile] at h
                    split at h
                    · simp [throwM] at h
                    · split at h
                      · simp [throwM] at h
                      · simp only [M.pure_def, Prod.mk.injEq, Except.ok.injEq] at h
                        exact h.1.symm

theorem diffLoop_ok_bound {n : Nat} (P : Prims) (oid nid : FPath)
    (df : List FileManifest) (hold : n < oid.length) :
    ∀ (es : List (FPath × Bytes)) (acc : List FPath) (st : St) (res : List FPath) (st' : St),
      diffLoop P oid nid df es acc st = (.ok res, st') →
      (∀ x ∈ acc, n < x.length) → ∀ x ∈ res, n < x.length := by
  intro es
  induction es with
  | nil =>
      intro acc st res st' h hacc
      simp only [diffLoop, M.pure_def, Prod.mk.injEq, Except.ok.injEq] at h
      rw [← h.1]
      exact hacc
  | cons e es ih =>
      intro acc st res st' h hacc
      rw [show diffLoop P oid nid df (e :: es) acc =
        (processDiffEntry P oid nid df acc e >>= fun acc' =>
          diffLoop P oid nid df es acc') from rfl, M.bind_def] at h
      cases hp : processDiffEntry P oid nid df acc e st with
      | mk rp st1 =>
          rw [hp] at h
          cases rp with
          | error e' => simp at h
          | ok acc' =>
              have hacc' : acc' = acc ++ [oid ++ e.1] :=
                processDiffEntry_ok_acc P oid nid df acc e st acc' st1 hp
              refine ih acc' st1 res st' h ?_
              intro x hx
              rw [hacc'] at hx
              rcases List.mem_append.mp hx with hx1 | hx2
              · exact hacc x hx1
              · have : x = oid ++ e.1 := by simpa using hx2
                rw [this, List.length_append]
                omega

theorem preservesBelow_install_patch {n : Nat} (P : Prims) (remote : Remote)
    (channel : String) (version : Version) (pmf : PlatformManifest)
    (old_install_dir : Option FPath) (nid : FPath) (mf : PatchManifest)
    (hn : n < nid.length) (ho : ∀ od ∈ old_install_dir, n < od.length) :
    PreservesBelow n (install_patch P remote channel version pmf old_install_dir nid mf) := by
  unfold install_patch
  refine preservesBelow_bind_prop (fun ftr : List FPath => ∀ x ∈ ftr, n < x.length) ?_ ?_ ?_
  · by_cases hde : mf.diff_files.isEmpty = true
    · rw [if_pos hde]
      exact preservesBelow_pure _
    · rw [if_neg hde]
      cases old_install_dir with
      | none => exact preservesBelow_throwM _
      | some od =>
          exact preservesBelow_bind (preservesBelow_fetch _ _)
            (fun entries => preservesBelow_diffLoop P od nid mf.diff_files hn entries [])
  · intro st a st' h
    by_cases hde : mf.diff_files.isEmpty = true
    · rw [if_pos hde] at h
      simp only [M.pure_def, Prod.mk.injEq, Except.ok.injEq] at h
      rw [← h.1]
      intro x hx
      cases hx
    · rw [if_neg hde] at h
      cases old_install_dir with
      | none => simp [throwM] at h
      | some od =>
          simp only [] at h
          rw [show (mFetch (.diffTar channel version pmf.os pmf.arch)
              (remote.diffTar channel version pmf.os pmf.arch) >>= fun entries =>
              diffLoop P od nid mf.diff_files entries []) st =
            diffLoop P od nid mf.diff_files
              (remote.diffTar channel version pmf.os pmf.arch) []
              { st with log := st.log ++ [.diffTar channel version pmf.os pmf.arch] }
            from rfl] at h
          exact diffLoop_ok_bound P od nid mf.diff_files (ho od rfl) _ [] _ a st' h
            (fun x hx => absurd hx (List.not_mem_nil x))
  · intro ftr hftr
    refine preservesBelow_bind ?_ (fun _ => ?_)
    · by_cases hne : mf.new_files.isEmpty = true
      · rw [if_pos hne]
        exact preservesBelow_pure _
      · rw [if_neg hne]
        exact preservesBelow_bind (preservesBelow_fetch _ _)
          (fun entries => preservesBelow_newLoop P nid mf.new_files hn entries)
    refine preservesBelow_bind ?_ (fun _ => ?_)
    · cases old_install_dir with
      | none => exact preservesBelow_pure _
      | some od =>
          have h1 : n < (nid ++ ["PackWisely", "Saved", "Config"]).length := by
            rw [List.length_append]; omega
          have h2 : n < (nid ++ ["PackWisely", "Saved", "SaveGames"]).length := by
            rw [List.length_append]; omega
          exact preservesBelow_bind (preservesBelow_copy_dir _ _ h1)
            (fun _ => preservesBelow_copy_dir _ _ h2)
    refine preservesBelow_bind ?_ (fun _ => ?_)
    · cases old_install_dir with
      | none => exact preservesBelow_pure _
      | some od =>
          refine preservesBelow_removeAll _ ?_
          intro p hp
          rcases List.mem_map.mp hp with ⟨f, _, hf⟩
          rw [← hf, List.length_append]
          have := ho od rfl
          omega
    · exact preservesBelow_removeAll ftr hftr

theorem do_install_ok_or_preserved
    (P : Prims) (host : Host) (remote : Remote) (install_dir : FPath) (st : St) :
    (do_install P host remote install_dir st).1 = .ok () ∨
    FilesAgreeBelow (install_dir.length + 2) st.fs
      ((do_install P host remote install_dir st).2).fs := by
  unfold do_install
  simp only [M.bind_def, get_channels, get_versions, get_patch, mFetch]
  cases hch : remote.channels.head? with
  | none => exact Or.inr (fun p hp => rfl)
  | some ch =>
      simp only [M.bind_def, verify_channel_dir]
      cases hv : st.fs.getFile ((install_dir ++ [ch.name]) ++ ["manifest.json"]) with
      | some d =>
          cases d with
          | bytes b => exact Or.inr (fun p hp => rfl)
          | tar es => exact Or.inr (fun p hp => rfl)
          | manifest mf =>
              simp only [M.bind_def, mFetch]
              cases hvl : (remote.versions ch.name).getLast? with
              | none => exact Or.inr (fun p hp => rfl)
              | some vmf =>
                  simp only []
                  by_cases hsc : (some mf).map (fun m => m.version) = some vmf.version
                  · rw [if_pos hsc]
                    exact Or.inl rfl
                  · rw [if_neg hsc]
                    cases hgp : get_platforms host vmf with
                    | error e' => exact Or.inr (fun p hp => rfl)
                    | ok platforms =>
                        cases platforms with
                        | nil => exact Or.inr (fun p hp => rfl)
                        | cons pm rest =>
                            simp only [M.bind_def, mCreateDirAll, mCreateFile, liftFS, mFetch]
                            have hn : install_dir.length + 2 <
                                (join_install_dir (install_dir ++ [ch.name])
                                  vmf.version pm).length := by
                              simp [join_install_dir]
                            have ho : ∀ od ∈ (some mf).map (fun m =>
                                join_install_dir (install_dir ++ [ch.name]) m.version pm),
                                install_dir.length + 2 < od.length := by
                              intro od hod
                              simp only [Option.map, Option.mem_def, Option.some.injEq] at hod
                              rw [← hod]
                              simp [join_install_dir]
                            have hpre := preservesBelow_install_patch P remote ch.name
                              vmf.version pm
                              ((some mf).map (fun m =>
                                join_install_dir (install_dir ++ [ch.name]) m.version pm))
                              (join_install_dir (install_dir ++ [ch.name]) vmf.version pm)
                              (remote.patchManifest ch.name vmf.version pm.os pm.arch)
                              hn ho
                            cases hip : install_patch P remote ch.name vmf.version pm
                                ((some mf).map (fun m =>
                                  join_install_dir (install_dir ++ [ch.name]) m.version pm))
                                (join_install_dir (install_dir ++ [ch.name]) vmf.version pm)
                                (remote.patchManifest ch.name vmf.version pm.os pm.arch)
                                { fs := st.fs.createDirAll
                                    (join_install_dir (install_dir ++ [ch.name]) vmf.version pm),
                                  log := st.log ++ [FetchKey.channels] ++
                                    [FetchKey.versions ch.name] ++
                                    [FetchKey.patchManifest ch.name vmf.version pm.os pm.arch] }
                                with
                            | mk rip st4 =>
                                have hpre' := hpre
                                  { fs := st.fs.createDirAll
                                      (join_install_dir (install_dir ++ [ch.name])
                                        vmf.version pm),
                                    log := st.log ++ [FetchKey.channels] ++
                                      [FetchKey.versions ch.name] ++
                                      [FetchKey.patchManifest ch.name vmf.version pm.os pm.arch] }
                                rw [hip] at hpre'
                                have hstep : FilesAgreeBelow (install_dir.length + 2)
                                    st.fs st4.fs :=
                                  filesAgreeBelow_trans (fun p hp => rfl) hpre'
                                cases rip with
                                | error e'' => exact Or.inr hstep
                                | ok u =>
                                    cases hcf : st4.fs.createFile
                                        (install_dir ++ [ch.name, "manifest.json"])
                                        (.manifest (remote.patchManifest ch.name vmf.version
                                          pm.os pm.arch)) with
                                    | ok fs5 => exact Or.inl (by simp [hcf, Except.map])
                                    | error k => exact Or.inr (by simpa [hcf, Except.map] using hstep)
      | none =>
          simp only [M.bind_def, mFetch]
          cases hvl : (remote.versions ch.name).getLast? with
          | none => exact Or.inr (fun p hp => rfl)
          | some vmf =>
              simp only []
              rw [if_neg (by simp)]
              cases hgp : get_platforms host vmf with
              | error e' => exact Or.inr (fun p hp => rfl)
              | ok platforms =>
                  cases platforms with
                  | nil => exact Or.inr (fun p hp => rfl)
                  | cons pm rest =>
                      simp only [M.bind_def, mCreateDirAll, mCreateFile, liftFS, mFetch]
                      have hn : install_dir.length + 2 <
                          (join_install_dir (install_dir ++ [ch.name])
                            vmf.version pm).length := by
                        simp [join_install_dir]
                      have hpre := preservesBelow_install_patch P remote ch.name
                        vmf.version pm
                        (Option.map (fun mf : PatchManifest =>
                          join_install_dir (install_dir ++ [ch.name]) mf.version pm) none)
                        (join_install_dir (install_dir ++ [ch.name]) vmf.version pm)
                        (remote.patchManifest ch.name vmf.version pm.os pm.arch)
                        hn (by intro od hod; simp at hod)
                      cases hip : install_patch P remote ch.name vmf.version pm
                          (Option.map (fun mf : PatchManifest =>
                            join_install_dir (install_dir ++ [ch.name]) mf.version pm) none)
                          (join_install_dir (install_dir ++ [ch.name]) vmf.version pm)
                          (remote.patchManifest ch.name vmf.version pm.os pm.arch)
                          { fs := st.fs.createDirAll
                              (join_install_dir (install_dir ++ [ch.name]) vmf.version pm),
                            log := st.log ++ [FetchKey.channels] ++
                              [FetchKey.versions ch.name] ++
                              [FetchKey.patchManifest ch.name vmf.version pm.os pm.arch] }
                          with
                      | mk rip st4 =>
                          have hpre' := hpre
                            { fs := st.fs.createDirAll
                                (join_install_dir (install_dir ++ [ch.name]) vmf.version pm),
                              log := st.log ++ [FetchKey.channels] ++
                                [FetchKey.versions ch.name] ++
                                [FetchKey.patchManifest ch.name vmf.version pm.os pm.arch] }
                          rw [hip] at hpre'
                          have hstep : FilesAgreeBelow (install_dir.length + 2)
                              st.fs st4.fs :=
                            filesAgreeBelow_trans (fun p hp => rfl) hpre'
                          cases rip with
                          | error e'' => exact Or.inr hstep
                          | ok u =>
                              cases hcf : st4.fs.createFile
                                  (install_dir ++ [ch.name, "manifest.json"])
                                  (.manifest (remote.patchManifest ch.name vmf.version
                                    pm.os pm.arch)) with
                              | ok fs5 => exact Or.inl (by simp [hcf, Except.map])
                              | error k => exact Or.inr (by simpa [hcf, Except.map] using hstep)

/-- C3: on every failing (or, equivalently, killed-before-commit) run of
`do_install`, every file whose path has at most `install_dir.length + 2`
components — in particular the channel-level
`install_dir/{channel}/manifest.json` — is left exactly as it was: the
manifest commit is the last step and runs only after the diff, new,
save-copy and stale-removal phases all succeeded, and every write or
removal in those phases happens at least three components below
`install_dir`. -/
theorem channel_manifest_untouched_on_failure
    (P : Prims) (host : Host) (remote : Remote) (install_dir : FPath) (st : St) (e : Err)
    (h : (do_install P host remote install_dir st).1 = .error e) :
    ∀ p : FPath, p.length ≤ install_dir.length + 2 →
      ((do_install P host remote install_dir st).2).fs.getFile p = st.fs.getFile p := by
  rcases do_install_ok_or_preserved P host remote install_dir st with hok | hpres
  · exact absurd (hok.symm.trans h) (by simp)
  · exact hpres

/-- Witness for C3: in the concrete short-entry run (which fails with
`WrongSize`), the installed channel manifest file is untouched. -/
theorem channel_manifest_untouched_on_failure_witness :
    ((do_install P0 linuxHost shortEntryRemote ["inst"] freshSt).2).fs.getFile
      ["inst", "stable", "manifest.json"] =
      freshSt.fs.getFile ["inst", "stable", "manifest.json"] :=
  channel_manifest_untouched_on_failure P0 linuxHost shortEntryRemote ["inst"] freshSt
    (.WrongSize 2 1) (by decide) ["inst", "stable", "manifest.json"] (by decide)

/-! ## C5: the size and hash verification of installed files -/

theorem contains_createDirAll_self (fs : FS) (q : FPath) (hq : q ≠ []) :
    (fs.createDirAll q).dirs.contains q = true := by
  unfold FS.createDirAll
  apply List.elem_eq_true_of_mem
  by_cases hc : fs.dirs.contains q = true
  · exact List.mem_append.mpr (Or.inl (List.mem_of_elem_eq_true hc))
  · refine List.mem_append.mpr (Or.inr ?_)
    rw [List.mem_filter]
    refine ⟨List.mem_append.mpr (Or.inr (by simp)), ?_⟩
    simp only [decide_eq_true_eq, ne_eq]
    exact ⟨hc, hq⟩

theorem createFile_after_createDirAll (fs : FS) (p : FPath) (d : FileData) (hp : ¬ p = []) :
    (fs.createDirAll p.dropLast).createFile p d =
      .ok ((fs.createDirAll p.dropLast).setFile p d) := by
  unfold FS.createFile
  rw [if_neg hp]
  by_cases hq : p.dropLast = []
  · rw [if_pos (Or.inl hq)]
  · have hc : (fs.createDirAll p.dropLast).dirs.contains p.dropLast = true := by
      have := contains_createDirAll_self fs p.dropLast hq
      simpa [FS.createDirAll] using this
    rw [if_pos (Or.inr hc)]

theorem processNewEntry_wrong_size (P : Prims) (nid : FPath) (nf : List FileManifest)
    (e : FPath × Bytes) (fm : FileManifest) (st : St)
    (hm : mapLookup nf e.1 = some fm) (hd : ¬ nid ++ e.1 = [])
    (hs : e.2.length ≠ fm.len) :
    (processNewEntry P nid nf e st).1 = .error (.WrongSize fm.len e.2.length) := by
  unfold processNewEntry
  rw [hm]
  simp only []
  rw [if_neg hd]
  simp only [M.bind_def, mCreateDirAll, mCreateFile, liftFS,
    createFile_after_createDirAll st.fs (nid ++ e.1) _ hd, Except.map]
  rw [if_pos hs]
  rfl

theorem processNewEntry_wrong_hash (P : Prims) (nid : FPath) (nf : List FileManifest)
    (e : FPath × Bytes) (fm : FileManifest) (st : St)
    (hm : mapLookup nf e.1 = some fm) (hd : ¬ nid ++ e.1 = [])
    (hs : e.2.length = fm.len) (hh : P.blake3 e.2 ≠ fm.hash) :
    (processNewEntry P nid nf e st).1 = .error (.WrongHash fm.hash (P.blake3 e.2)) := by
  unfold processNewEntry
  rw [hm]
  simp only []
  rw [if_neg hd]
  simp only [M.bind_def, mCreateDirAll, mCreateFile, liftFS,
    createFile_after_createDirAll st.fs (nid ++ e.1) _ hd, Except.map]
  rw [if_neg (by simpa using hs), if_pos hh]
  rfl

theorem processNewEntry_ok (P : Prims) (nid : FPath) (nf : List FileManifest)
    (e : FPath × Bytes) (fm : FileManifest) (st : St)
    (hm : mapLookup nf e.1 = some fm) (hd : ¬ nid ++ e.1 = [])
    (hs : e.2.length = fm.len) (hh : P.blake3 e.2 = fm.hash) :
    (processNewEntry P nid nf e st).1 = .ok () := by
  unfold processNewEntry
  rw [hm]
  simp only []
  rw [if_neg hd]
  simp only [M.bind_def, mCreateDirAll, mCreateFile, liftFS,
    createFile_after_createDirAll st.fs (nid ++ e.1) _ hd, Except.map]
  rw [if_neg (by simpa using hs), if_neg (by simpa using hh)]
  rfl

theorem processDiffEntry_wrong_size (P : Prims) (oid nid : FPath)
    (df : List FileManifest) (acc : List FPath) (e : FPath × Bytes) (fm : FileManifest)
    (st : St) (src : FileData) (out : Bytes)
    (hm : mapLookup df e.1 = some fm) (hd : ¬ nid ++ e.1 = [])
    (hr : ((st.fs.createDirAll (nid ++ e.1).dropLast).setFile (nid ++ e.1)
      (.bytes (List.replicate fm.len 0))).readFile (oid ++ e.1) = .ok src)
    (hap : P.applyLimited src.toBytes e.2 fm.len = some out)
    (hs : out.length ≠ fm.len) :
    (processDiffEntry P oid nid df acc e st).1 = .error (.WrongSize fm.len out.length) := by
  unfold processDiffEntry
  rw [hm]
  simp only []
  rw [if_neg hd]
  simp only [M.bind_def, mCreateDirAll, mCreateFile, liftFS, mReadFile, mSetFile,
    createFile_after_createDirAll st.fs (nid ++ e.1) _ hd, Except.map, hr, hap]
  rw [if_pos hs]
  rfl

theorem processDiffEntry_wrong_hash (P : Prims) (oid nid : FPath)
    (df : List FileManifest) (acc : List FPath) (e : FPath × Bytes) (fm : FileManifest)
    (st : St) (src : FileData) (out : Bytes)
    (hm : mapLookup df e.1 = some fm) (hd : ¬ nid ++ e.1 = [])
    (hr : ((st.fs.createDirAll (nid ++ e.1).dropLast).setFile (nid ++ e.1)
      (.bytes (List.replicate fm.len 0))).readFile (oid ++ e.1) = .ok src)
    (hap : P.applyLimited src.toBytes e.2 fm.len = some out)
    (hs : out.length = fm.len)
    (hh : P.blake3 (out ++ (List.replicate fm.len 0).drop out.length) ≠ fm.hash) :
    (processDiffEntry P oid nid df acc e st).1 =
      .error (.WrongHash fm.hash (P.blake3 (out ++ (List.replicate fm.len 0).drop out.length))) := by
  unfold processDiffEntry
  rw [hm]
  simp only []
  rw [if_neg hd]
  simp only [M.bind_def, mCreateDirAll, mCreateFile, liftFS, mReadFile, mSetFile,
    createFile_after_createDirAll st.fs (nid ++ e.1) _ hd, Except.map, hr, hap]
  rw [if_neg (by simpa using hs)]
  rw [if_pos (by simpa using hh)]
  rfl

theorem processDiffEntry_ok (P : Prims) (oid nid : FPath)
    (df : List FileManifest) (acc : List FPath) (e : FPath × Bytes) (fm : FileManifest)
    (st : St) (src : FileData) (out : Bytes)
    (hm : mapLookup df e.1 = some fm) (hd : ¬ nid ++ e.1 = [])
    (hr : ((st.fs.createDirAll (nid ++ e.1).dropLast).setFile (nid ++ e.1)
      (.bytes (List.replicate fm.len 0))).readFile (oid ++ e.1) = .ok src)
    (hap : P.applyLimited src.toBytes e.2 fm.len = some out)
    (hs : out.length = fm.len)
    (hh : P.blake3 (out ++ (List.replicate fm.len 0).drop out.length) = fm.hash) :
    (processDiffEntry P oid nid df acc e st).1 = .ok (acc ++ [oid ++ e.1]) := by
  unfold processDiffEntry
  rw [hm]
  simp only []
  rw [if_neg hd]
  simp only [M.bind_def, mCreateDirAll, mCreateFile, liftFS, mReadFile, mSetFile,
    createFile_after_createDirAll st.fs (nid ++ e.1) _ hd, Except.map, hr, hap]
  rw [if_neg (by simpa using hs)]
  rw [if_neg (by simpa using hh)]
  rfl

theorem processNewEntry_ok_inversion (P : Prims) (nid : FPath) (nf : List FileManifest)
    (e : FPath × Bytes) (st : St) (u : Unit) (st' : St)
    (h : processNewEntry P nid nf e st = (.ok u, st')) :
    ∃ fm, mapLookup nf e.1 = some fm ∧ e.2.length = fm.len ∧ P.blake3 e.2 = fm.hash := by
  unfold processNewEntry at h
  cases hm : mapLookup nf e.1 with
  | none => rw [hm] at h; simp [throwM] at h
  | some fm =>
      rw [hm] at h
      simp only [] at h
      by_cases hd : nid ++ e.1 = []
      · rw [if_pos hd] at h; simp [throwM] at h
      · rw [if_neg hd] at h
        simp only [M.bind_def, mCreateDirAll, mCreateFile, liftFS,
          createFile_after_createDirAll st.fs (nid ++ e.1) _ hd, Except.map] at h
        split at h
        · simp [throwM] at h
        · next hs =>
            split at h
            · simp [throwM] at h
            · next hh => exact ⟨fm, rfl, not_not.mp hs, not_not.mp hh⟩

theorem newLoop_ok_entries (P : Prims) (nid : FPath) (nf : List FileManifest) :
    ∀ (es : List (FPath × Bytes)) (st : St) (u : Unit) (st' : St),
      newLoop P nid nf es st = (.ok u, st') →
      ∀ e ∈ es, ∃ fm, mapLookup nf e.1 = some fm ∧
        e.2.length = fm.len ∧ P.blake3 e.2 = fm.hash := by
  intro es
  induction es with
  | nil => intro st u st' h e he; cases he
  | cons e0 es ih =>
      intro st u st' h e he
      rw [show newLoop P nid nf (e0 :: es) =
        (processNewEntry P nid nf e0 >>= fun _ => newLoop P nid nf es) from rfl,
        M.bind_def] at h
      cases hp : processNewEntry P nid nf e0 st with
      | mk rp st1 =>
          rw [hp] at h
          cases rp with
          | error e' => simp at h
          | ok v =>
              rcases List.mem_cons.mp he with he0 | hes
              · rw [he0]
                exact processNewEntry_ok_inversion P nid nf e0 st v st1 hp
              · exact ih st1 u st' h e hes

theorem processDiffEntry_ok_inversion (P : Prims) (oid nid : FPath)
    (df : List FileManifest) (acc : List FPath) (e : FPath × Bytes) (st : St)
    (res : List FPath) (st' : St)
    (h : processDiffEntry P oid nid df acc e st = (.ok res, st')) :
    ∃ fm out srcb, mapLookup df e.1 = some fm ∧
      P.applyLimited srcb e.2 fm.len = some out ∧
      out.length = fm.len ∧
      P.blake3 (out ++ (List.replicate fm.len 0).drop out.length) = fm.hash := by
  unfold processDiffEntry at h
  cases hm : mapLookup df e.1 with
  | none => rw [hm] at h; simp [throwM] at h
  | some fm =>
      rw [hm] at h
      simp only [] at h
      by_cases hd : nid ++ e.1 = []
      · rw [if_pos hd] at h; simp [throwM] at h
      · rw [if_neg hd] at h
        simp only [M.bind_def, mCreateDirAll, mCreateFile, liftFS, mReadFile, mSetFile,
          createFile_after_createDirAll st.fs (nid ++ e.1) _ hd, Except.map] at h
        cases hr : ((st.fs.createDirAll (List.dropLast (nid ++ e.1))).setFile (nid ++ e.1)
            (.bytes (List.replicate fm.len 0))).readFile (oid ++ e.1) with
        | error k => rw [hr] at h; simp at h
        | ok src =>
            rw [hr] at h
            simp only [] at h
            cases hap : P.applyLimited src.toBytes e.2 fm.len with
            | none => rw [hap] at h; simp [throwM] at h
            | some out =>
                rw [hap] at h
                simp only [M.bind_def, mSetFile] at h
                split at h
                · simp [throwM] at h
                · next hs =>
                    split at h
                    · simp [throwM] at h
                    · next hh =>
                        exact ⟨fm, out, src.toBytes, rfl, hap,
                          not_not.mp hs, not_not.mp hh⟩

theorem diffLoop_ok_entries (P : Prims) (oid nid : FPath) (df : List FileManifest) :
    ∀ (es : List (FPath × Bytes)) (acc : List FPath) (st : St) (res : List FPath) (st' : St),
      diffLoop P oid nid df es acc st = (.ok res, st') →
      ∀ e ∈ es, ∃ fm out srcb, mapLookup df e.1 = some fm ∧
        P.applyLimited srcb e.2 fm.len = some out ∧
        out.length = fm.len ∧
        P.blake3 (out ++ (List.replicate fm.len 0).drop out.length) = fm.hash := by
  intro es
  induction es with
  | nil => intro acc st res st' h e he; cases he
  | cons e0 es ih =>
      intro acc st res st' h e he
      rw [show diffLoop P oid nid df (e0 :: es) acc =
        (processDiffEntry P oid nid df acc e0 >>= fun acc' =>
          diffLoop P oid nid df es acc') from rfl, M.bind_def] at h
      cases hp : processDiffEntry P oid nid df acc e0 st with
      | mk rp st1 =>
          rw [hp] at h
          cases rp with
          | error e' => simp at h
          | ok acc' =>
              rcases List.mem_cons.mp he with he0 | hes
              · rw [he0]
                exact processDiffEntry_ok_inversion P oid nid df acc e0 st acc' st1 hp
              · exact ih acc' st1 res st' h e hes

/-- C5 (amended): for every archive entry processed in the diff and new
phases of install, after the output file is produced: if the number of
bytes written to it (the stream position the code checks) differs from
the manifest's `expected_len`, the run fails
`WrongSize{expected, written}` — even when the pre-sized file's on-disk
size equals `expected_len`; otherwise, if the BLAKE3 hash of the file's
content differs from `expected_hash`, the run fails
`WrongHash{expected, actual}`; an entry is processed successfully
exactly when both checks pass, and a phase loop succeeds only if every
entry of its archive passes both checks. -/
theorem install_verification_checks :
    (∀ (P : Prims) (nid : FPath) (nf : List FileManifest) (e : FPath × Bytes)
      (fm : FileManifest) (st : St),
      mapLookup nf e.1 = some fm → ¬ nid ++ e.1 = [] → e.2.length ≠ fm.len →
      (processNewEntry P nid nf e st).1 = .error (.WrongSize fm.len e.2.length)) ∧
    (∀ (P : Prims) (nid : FPath) (nf : List FileManifest) (e : FPath × Bytes)
      (fm : FileManifest) (st : St),
      mapLookup nf e.1 = some fm → ¬ nid ++ e.1 = [] → e.2.length = fm.len →
      P.blake3 e.2 ≠ fm.hash →
      (processNewEntry P nid nf e st).1 = .error (.WrongHash fm.hash (P.blake3 e.2))) ∧
    (∀ (P : Prims) (nid : FPath) (nf : List FileManifest) (e : FPath × Bytes)
      (fm : FileManifest) (st : St),
      mapLookup nf e.1 = some fm → ¬ nid ++ e.1 = [] → e.2.length = fm.len →
      P.blake3 e.2 = fm.hash → (processNewEntry P nid nf e st).1 = .ok ()) ∧
    (∀ (P : Prims) (oid nid : FPath) (df : List FileManifest) (acc : List FPath)
      (e : FPath × Bytes) (fm : FileManifest) (st : St) (src : FileData) (out : Bytes),
      mapLookup df e.1 = some fm → ¬ nid ++ e.1 = [] →
      ((st.fs.createDirAll (nid ++ e.1).dropLast).setFile (nid ++ e.1)
        (.bytes (List.replicate fm.len 0))).readFile (oid ++ e.1) = .ok src →
      P.applyLimited src.toBytes e.2 fm.len = some out → out.length ≠ fm.len →
      (processDiffEntry P oid nid df acc e st).1 = .error (.WrongSize fm.len out.length)) ∧
    (∀ (P : Prims) (oid nid : FPath) (df : List FileManifest) (acc : List FPath)
      (e : FPath × Bytes) (fm : FileManifest) (st : St) (src : FileData) (out : Bytes),
      mapLookup df e.1 = some fm → ¬ nid ++ e.1 = [] →
      ((st.fs.createDirAll (nid ++ e.1).dropLast).setFile (nid ++ e.1)
        (.bytes (List.replicate fm.len 0))).readFile (oid ++ e.1) = .ok src →
      P.applyLimited src.toBytes e.2 fm.len = some out → out.length = fm.len →
      P.blake3 (out ++ (List.replicate fm.len 0).drop out.length) ≠ fm.hash →
      (processDiffEntry P oid nid df acc e st).1 =
        .error (.WrongHash fm.hash
          (P.blake3 (out ++ (List.replicate fm.len 0).drop out.length)))) ∧
    (∀ (P : Prims) (oid nid : FPath) (df : List FileManifest) (acc : List FPath)
      (e : FPath × Bytes) (fm : FileManifest) (st : St) (src : FileData) (out : Bytes),
      mapLookup df e.1 = some fm → ¬ nid ++ e.1 = [] →
      ((st.fs.createDirAll (nid ++ e.1).dropLast).setFile (nid ++ e.1)
        (.bytes (List.replicate fm.len 0))).readFile (oid ++ e.1) = .ok src →
      P.applyLimited src.toBytes e.2 fm.len = some out → out.length = fm.len →
      P.blake3 (out ++ (List.replicate fm.len 0).drop out.length) = fm.hash →
      (processDiffEntry P oid nid df acc e st).1 = .ok (acc ++ [oid ++ e.1])) ∧
    (∀ (P : Prims) (nid : FPath) (nf : List FileManifest) (es : List (FPath × Bytes))
      (st : St) (u : Unit) (st' : St),
      newLoop P nid nf es st = (.ok u, st') →
      ∀ e ∈ es, ∃ fm, mapLookup nf e.1 = some fm ∧
        e.2.length = fm.len ∧ P.blake3 e.2 = fm.hash) ∧
    (∀ (P : Prims) (oid nid : FPath) (df : List FileManifest)
      (es : List (FPath × Bytes)) (acc : List FPath) (st : St) (res : List FPath) (st' : St),
      diffLoop P oid nid df es acc st = (.ok res, st') →
      ∀ e ∈ es, ∃ fm out srcb, mapLookup df e.1 = some fm ∧
        P.applyLimited srcb e.2 fm.len = some out ∧
        out.length = fm.len ∧
        P.blake3 (out ++ (List.replicate fm.len 0).drop out.length) = fm.hash) :=
  ⟨processNewEntry_wrong_size, processNewEntry_wrong_hash, processNewEntry_ok,
   processDiffEntry_wrong_size, processDiffEntry_wrong_hash, processDiffEntry_ok,
   fun P nid nf es st u st' h => newLoop_ok_entries P nid nf es st u st' h,
   fun P oid nid df es acc st res st' h => diffLoop_ok_entries P oid nid df es acc st res st' h⟩

/-- Witness for C5's amended statement: concrete instances of the
wrong-size, wrong-hash and success behaviours of the new-phase entry
processing. -/
theorem install_verification_checks_witness :
    (processNewEntry P0 ["d"] [{ path := ["f"], len := 2, hash := [5, 6] }]
      (["f"], [5]) freshSt).1 = .error (.WrongSize 2 1) ∧
    (processNewEntry P0 ["d"] [{ path := ["f"], len := 1, hash := [9] }]
      (["f"], [5]) freshSt).1 = .error (.WrongHash [9] [5]) ∧
    (processNewEntry P0 ["d"] [{ path := ["f"], len := 1, hash := [5] }]
      (["f"], [5]) freshSt).1 = .ok () :=
  ⟨install_verification_checks.1 P0 ["d"] [{ path := ["f"], len := 2, hash := [5, 6] }]
     (["f"], [5]) { path := ["f"], len := 2, hash := [5, 6] } freshSt (by decide) (by decide)
     (by decide),
   install_verification_checks.2.1 P0 ["d"] [{ path := ["f"], len := 1, hash := [9] }]
     (["f"], [5]) { path := ["f"], len := 1, hash := [9] } freshSt (by decide) (by decide)
     (by decide) (by decide),
   install_verification_checks.2.2.1 P0 ["d"] [{ path := ["f"], len := 1, hash := [5] }]
     (["f"], [5]) { path := ["f"], len := 1, hash := [5] } freshSt (by decide) (by decide)
     (by decide) (by decide)⟩

/-! ## C10: an empty old_dir string means a full install -/

/-- Reachability of `f` from directory `d`: `f` lies strictly under `d`
and every intermediate directory on the way exists. -/
def leadsTo (fs : FS) (d f : FPath) : Prop :=
  (∃ rel, rel ≠ [] ∧ f = d ++ rel) ∧
  ∀ k, d.length < k → k < f.length → fs.hasDir (f.take k) = true

theorem visitLoop_acc_mono (fs : FS) :
    ∀ (fuel : Nat) (tv : List FPath) (pend : List (Bool × FPath)) (acc res : List FPath),
      visitLoop fs fuel tv pend acc = .ok res → ∀ x ∈ acc, x ∈ res := by
  intro fuel
  induction fuel with
  | zero => intro tv pend acc res h; cases h
  | succ n ih =>
      intro tv pend acc res h x hx
      cases pend with
      | nil =>
          cases tv with
          | nil =>
              simp only [visitLoop] at h
              cases h
              exact hx
          | cons d rest =>
              simp only [visitLoop] at h
              cases hrd : fs.readDir d with
              | error k => rw [hrd] at h; cases h
              | ok children =>
                  rw [hrd] at h
                  exact ih rest children acc res h x hx
      | cons e es =>
          simp only [visitLoop] at h
          cases he : e.1 with
          | true =>
              rw [he] at h
              simp only [eq_self_iff_true, if_true] at h
              exact ih _ es _ res h x hx
          | false =>
              rw [he] at h
              simp only [Bool.false_eq_true, if_false] at h
              exact ih _ es _ res h x (List.mem_append.mpr (Or.inl hx))

theorem visitLoop_complete (fs : FS) (f : FPath) (v : FileData) (hfv : (f, v) ∈ fs.files) :
    ∀ (fuel : Nat) (tv : List FPath) (pend : List (Bool × FPath)) (acc res : List FPath),
      visitLoop fs fuel tv pend acc = .ok res →
      ((∃ d ∈ tv, leadsTo fs d f) ∨ (false, f) ∈ pend ∨
        (∃ d, (true, d) ∈ pend ∧ leadsTo fs d f)) →
      f ∈ res := by
  intro fuel
  induction fuel with
  | zero => intro tv pend acc res h _; cases h
  | succ n ih =>
      intro tv pend acc res h hreach
      cases pend with
      | nil =>
          rcases hreach with ⟨d, hd, hlt⟩ | hf | ⟨d, hd, _⟩
          · cases tv with
            | nil => cases hd
            | cons d0 rest =>
                simp only [visitLoop] at h
                cases hrd : fs.readDir d0 with
                | error k => rw [hrd] at h; cases h
                | ok children =>
                    rw [hrd] at h
                    have hch : children =
                        (fs.dirs.filterMap (fun q =>
                          if q ≠ [] ∧ q.dropLast = d0 then some (true, q) else none)) ++
                        (fs.files.filterMap (fun e =>
                          if e.1 ≠ [] ∧ e.1.dropLast = d0 then some (false, e.1) else none)) := by
                      unfold FS.readDir at hrd
                      split at hrd
                      · cases hrd; rfl
                      · cases hrd
                    rcases List.mem_cons.mp hd with hdd | hdrest
                    · subst hdd
                      obtain ⟨⟨rel, hrel, hfeq⟩, hchain⟩ := hlt
                      cases rel with
                      | nil => exact absurd rfl hrel
                      | cons x rs =>
                          cases rs with
                          | nil =>
                              refine ih rest children acc res h (Or.inr (Or.inl ?_))
                              rw [hch]
                              refine List.mem_append.mpr (Or.inr ?_)
                              rw [List.mem_filterMap]
                              refine ⟨(f, v), hfv, ?_⟩
                              have h1 : f ≠ [] := by
                                rw [hfeq]; simp
                              have h2 : f.dropLast = d := by
                                rw [hfeq]
                                exact List.dropLast_concat
                              rw [if_pos ⟨h1, h2⟩]
                          | cons y ys =>
                              have hklt : d.length + 1 < f.length := by
                                rw [hfeq]
                                simp [List.length_append]
                              have hd1dir : fs.hasDir (f.take (d.length + 1)) = true :=
                                hchain (d.length + 1) (by omega) hklt
                              have htake : f.take (d.length + 1) = d ++ [x] := by
                                rw [hfeq]
                                rw [show d.length + 1 = d.length + 1 from rfl]
                                rw [List.take_append 1]
                                rfl
                              refine ih rest children acc res h (Or.inr (Or.inr ⟨d ++ [x], ?_, ?_⟩))
                              · rw [hch]
                                refine List.mem_append.mpr (Or.inl ?_)
                                rw [List.mem_filterMap]
                                refine ⟨d ++ [x], ?_, ?_⟩
                                · rw [← htake]
                                  exact List.mem_of_elem_eq_true hd1dir
                                · have h1 : d ++ [x] ≠ [] := by simp
                                  have h2 : (d ++ [x]).dropLast = d := List.dropLast_concat
                                  rw [if_pos ⟨h1, h2⟩]
                              · refine ⟨⟨y :: ys, by simp, ?_⟩, ?_⟩
                                · rw [hfeq]
                                  simp
                                · intro k hk1 hk2
                                  refine hchain k ?_ hk2
                                  rw [List.length_append] at hk1
                                  simp at hk1
                                  omega
                    · exact ih rest children acc res h (Or.inl ⟨d, hdrest, hlt⟩)
          · cases hf
          · cases hd
      | cons e es =>
          obtain ⟨b, p⟩ := e
          cases b with
          | true =>
              simp only [visitLoop, eq_self_iff_true, if_true] at h
              rcases hreach with ⟨d, hd, hlt⟩ | hf | ⟨d, hd, hlt⟩
              · exact ih _ es _ res h (Or.inl ⟨d, List.mem_cons_of_mem p hd, hlt⟩)
              · rcases List.mem_cons.mp hf with hpf | hfes
                · cases hpf
                · exact ih _ es _ res h (Or.inr (Or.inl hfes))
              · rcases List.mem_cons.mp hd with hpd | hdes
                · have hp : p = d := by
                    injection hpd with h1 h2
                    exact h2.symm
                  subst hp
                  exact ih _ es _ res h (Or.inl ⟨p, List.mem_cons_self p tv, hlt⟩)
                · exact ih _ es _ res h (Or.inr (Or.inr ⟨d, hdes, hlt⟩))
          | false =>
              simp only [visitLoop, Bool.false_eq_true, if_false] at h
              rcases hreach with ⟨d, hd, hlt⟩ | hf | ⟨d, hd, hlt⟩
              · exact ih _ es _ res h (Or.inl ⟨d, hd, hlt⟩)
              · rcases List.mem_cons.mp hf with hpf | hfes
                · have hp : p = f := by
                    injection hpf with h1 h2
                    exact h2.symm
                  subst hp
                  exact visitLoop_acc_mono fs n _ es _ res h p (by simp)
                · exact ih _ es _ res h (Or.inr (Or.inl hfes))
              · rcases List.mem_cons.mp hd with hpd | hdes
                · cases hpd
                · exact ih _ es _ res h (Or.inr (Or.inr ⟨d, hdes, hlt⟩))

theorem mem_eraseKey_of_ne (l : List (FPath × FileData)) (p q : FPath) (v : FileData)
    (h : (p, v) ∈ l) (hne : ¬ p = q) : (p, v) ∈ eraseKey q l := by
  induction l with
  | nil => cases h
  | cons a as ih =>
      rcases List.mem_cons.mp h with hap | has
      · rw [← hap]
        simp [eraseKey, hne]
      · by_cases haq : a.1 = q
        · simpa [eraseKey, haq] using ih has
        · simp only [eraseKey, if_neg haq]
          exact List.mem_cons_of_mem a (ih has)

theorem exists_key_setFile (fs : FS) (q : FPath) (d : FileData) (p : FPath)
    (h : ∃ v, (p, v) ∈ fs.files) : ∃ v, (p, v) ∈ (fs.setFile q d).files := by
  obtain ⟨v, hv⟩ := h
  by_cases hpq : p = q
  · subst hpq
    exact ⟨d, by simp [FS.setFile]⟩
  · exact ⟨v, List.mem_cons_of_mem _ (mem_eraseKey_of_ne fs.files p q v hv hpq)⟩

theorem newFilesLoop_mfs_mono (P : Prims) (nd : FPath) :
    ∀ (files : List FPath) (mfs : List FileManifest) (raws sigs : List (FPath × Bytes))
      (st : St) (trip : List FileManifest × List (FPath × Bytes) × List (FPath × Bytes))
      (st' : St),
      newFilesLoop P nd files mfs raws sigs st = (.ok trip, st') →
      ∀ m ∈ mfs, m ∈ trip.1 := by
  intro files
  induction files with
  | nil =>
      intro mfs raws sigs st trip st' h m hm
      simp only [newFilesLoop, M.pure_def, Prod.mk.injEq, Except.ok.injEq] at h
      rw [← h.1]
      exact hm
  | cons f0 fsr ih =>
      intro mfs raws sigs st trip st' h m hm
      simp only [newFilesLoop] at h
      cases hdr : dropRoot nd f0 with
      | none => rw [hdr] at h; simp [throwM] at h
      | some rel =>
          rw [hdr] at h
          simp only [M.bind_def, mReadFile] at h
          cases hrf : st.fs.readFile f0 with
          | error k => rw [hrf] at h; simp at h
          | ok dta =>
              rw [hrf] at h
              simp only [] at h
              exact ih _ _ _ _ trip st' h m (List.mem_append.mpr (Or.inl hm))

theorem newFilesLoop_complete (P : Prims) (nd : FPath) :
    ∀ (files : List FPath) (mfs : List FileManifest) (raws sigs : List (FPath × Bytes))
      (st : St) (trip : List FileManifest × List (FPath × Bytes) × List (FPath × Bytes))
      (st' : St),
      newFilesLoop P nd files mfs raws sigs st = (.ok trip, st') →
      ∀ f ∈ files, ∃ rel, dropRoot nd f = some rel ∧
        rel ∈ trip.1.map (fun m => m.path) := by
  intro files
  induction files with
  | nil => intro mfs raws sigs st trip st' h f hf; cases hf
  | cons f0 fsr ih =>
      intro mfs raws sigs st trip st' h f hf
      simp only [newFilesLoop] at h
      cases hdr : dropRoot nd f0 with
      | none => rw [hdr] at h; simp [throwM] at h
      | some rel =>
          rw [hdr] at h
          simp only [M.bind_def, mReadFile] at h
          cases hrf : st.fs.readFile f0 with
          | error k => rw [hrf] at h; simp at h
          | ok dta =>
              rw [hrf] at h
              simp only [] at h
              rcases List.mem_cons.mp hf with hf0 | hfr
              · subst hf0
                refine ⟨rel, hdr, ?_⟩
                have hmem : (⟨rel, dta.toBytes.length, P.blake3 dta.toBytes⟩ : FileManifest) ∈ trip.1 :=
                  newFilesLoop_mfs_mono P nd fsr _ _ _ _ trip st' h _
                    (List.mem_append.mpr (Or.inr (by simp)))
                exact List.mem_map.mpr ⟨_, hmem, rfl⟩
              · exact ih _ _ _ _ trip st' h f hfr

/-- C10: the `create_patch` command treats an empty `old_dir` argument
as the absence of an old directory: a successful run takes the
full-install path, so the emitted manifest has `previous_version = None`
and empty `diff_files` and `stale_files`, and every regular file under
`new_dir` (reachable through existing directories) is listed in
`new_files` under its tree-relative path. -/
theorem create_patch_empty_old_dir_full_install
(P : Prims) (out_dir new_dir : FPath) (version : Version) (st : St)
    (r : CreatePatchResult) (st' : St)
    (h : create_patch P out_dir new_dir [] version st = (.ok r, st')) :
    r.manifest.previous_version = none ∧
    r.manifest.diff_files = [] ∧
    r.manifest.stale_files = [] ∧
    (∀ (f : FPath) (v : FileData), (f, v) ∈ st.fs.files →
      (∃ rel, rel ≠ [] ∧ f = new_dir ++ rel) →
      (∀ k, new_dir.length < k → k < f.length → st.fs.hasDir (f.take k) = true) →
      ∃ rel, dropRoot new_dir f = some rel ∧
        rel ∈ r.manifest.new_files.map (fun m => m.path)) := by
  rw [show create_patch P out_dir new_dir [] version =
    do_create_patch P out_dir new_dir none version from rfl] at h
  unfold do_create_patch at h
  simp only [M.bind_def, mCreateFile, liftFS] at h
  cases hc1 : st.fs.createFile (out_dir ++ ["raw.tar"]) (.tar []) with
  | error k => rw [hc1] at h; simp [Except.map] at h
  | ok fs1 =>
  rw [hc1] at h
  simp only [Except.map] at h
  cases hc2 : fs1.createFile (out_dir ++ ["sig.tar"]) (.tar []) with
  | error k => rw [hc2] at h; simp [Except.map] at h
  | ok fs2 =>
  rw [hc2] at h
  simp only [Except.map] at h
  cases hc3 : fs2.createFile (out_dir ++ ["manifest.json"]) (.bytes []) with
  | error k => rw [hc3] at h; simp [Except.map] at h
  | ok fs3 =>
  rw [hc3] at h
  simp only [Except.map, get_files] at h
  cases hv : visitLoop fs3 (2 * (fs3.dirs.length + fs3.files.length) + 2) [new_dir] [] [] with
  | error k => rw [hv] at h; simp at h
  | ok files =>
  rw [hv] at h
  simp only [M.pure_def] at h
  cases hn : newFilesLoop P new_dir files [] [] [] { fs := fs3, log := st.log } with
  | mk res4 st4 =>
  rw [hn] at h
  cases res4 with
  | error e => simp at h
  | ok trip =>
  simp only [M.bind_def, mSetFile, M.pure_def] at h
  simp only [Prod.mk.injEq, Except.ok.injEq] at h
  obtain ⟨hr, hst⟩ := h
  have hfs1 : fs1 = st.fs.setFile (out_dir ++ ["raw.tar"]) (.tar []) :=
    createFile_ok_eq _ _ _ _ hc1
  have hfs2 : fs2 = fs1.setFile (out_dir ++ ["sig.tar"]) (.tar []) :=
    createFile_ok_eq _ _ _ _ hc2
  have hfs3 : fs3 = fs2.setFile (out_dir ++ ["manifest.json"]) (.bytes []) :=
    createFile_ok_eq _ _ _ _ hc3
  refine ⟨by rw [← hr], by rw [← hr], by rw [← hr], ?_⟩
  intro f v hfv hunder hchain
  have hkey : ∃ v3, (f, v3) ∈ fs3.files := by
    rw [hfs3, hfs2, hfs1]
    exact exists_key_setFile _ _ _ _
      (exists_key_setFile _ _ _ _ (exists_key_setFile _ _ _ _ ⟨v, hfv⟩))
  obtain ⟨v3, hv3⟩ := hkey
  have hdirs : fs3.dirs = st.fs.dirs := by
    rw [hfs3, hfs2, hfs1]
    rfl
  have hlead : leadsTo fs3 new_dir f := by
    refine ⟨hunder, ?_⟩
    intro k hk1 hk2
    rw [show fs3.hasDir (f.take k) = st.fs.hasDir (f.take k) from by
      unfold FS.hasDir; rw [hdirs]]
    exact hchain k hk1 hk2
  have hmemf : f ∈ files :=
    visitLoop_complete fs3 f v3 hv3 _ [new_dir] [] [] files hv
      (Or.inl ⟨new_dir, by simp, hlead⟩)
  obtain ⟨rel, hdr, hmm⟩ := newFilesLoop_complete P new_dir files [] [] []
    { fs := fs3, log := st.log } trip st4 hn f hmemf
  refine ⟨rel, hdr, ?_⟩
  rw [← hr]
  exact hmm

/-- Witness for C10: the solo-file authoring run, through the theorem. -/
theorem create_patch_empty_old_dir_full_install_witness :
    soloFileResult.manifest.previous_version = none ∧
    soloFileResult.manifest.diff_files = [] ∧
    soloFileResult.manifest.stale_files = [] ∧
    (∃ rel, dropRoot ["n"] ["n", "x"] = some rel ∧
      rel ∈ soloFileResult.manifest.new_files.map (fun m => m.path)) :=
  have h := create_patch_empty_old_dir_full_install P0 ["o"] ["n"] "1" soloFileSt
    soloFileResult (create_patch P0 ["o"] ["n"] [] "1" soloFileSt).2 (by decide)
  ⟨h.1, h.2.1, h.2.2.1,
   h.2.2.2 ["n", "x"] (.bytes [3]) (by decide) ⟨["x"], by decide, rfl⟩
     (by intro k hk1 hk2; simp at hk1 hk2; omega)⟩
